import Mathlib

/-!
Verification of the terminal-data alert/screener platform.

Shallow embedding of the core components into Lean 4:

* alert evaluator (`src/modules/alerts/evaluator.py`, `models.py`)
* alert manager and engine (`src/modules/alerts/alert_manager.py`, `engine.py`,
  `store.py`)
* quote scaler (`src/shared/provider/tradingview/quote_scaler.py`)
* screener websocket session manager (`src/modules/api/ws.py`,
  `src/modules/scanner/ws.py`)
* ezscan expression evaluator and cache
  (`src/modules/ezscan/core/expression_evaluator.py`, `utils/cache.py`,
  `core/scanner_engine.py`)
* quote stream codec (`src/modules/core/provider/tradingview/quote_streamer.py`)

Conventions.  Python floats are embedded as rationals (`Rat`); the claims under
study concern control flow and exact algebraic structure, not rounding.
Python runtime exceptions (AttributeError, ValueError, IndexError) are made
explicit with `Except PyErr`.  Python `dict`s are embedded as insertion-ordered
association lists and Python `set`s as insertion-ordered duplicate-free lists;
only membership and size of sets are ever observed by the code under study.
-/

/-- Python runtime exceptions that the embedded code can raise. -/
inductive PyErr where
  | attributeError
  | valueError
  | indexError
  deriving Repr, DecidableEq

/-! ### Association-list helpers (Python `dict` semantics) -/

/-- `d.get(k)`: first binding of `k` in an insertion-ordered assoc list. -/
def alookup {α β : Type} [DecidableEq α] : List (α × β) → α → Option β
  | [], _ => none
  | (k, v) :: rest, key => if k = key then some v else alookup rest key

/-- `d[k] = v`: overwrite in place if the key exists, else append (Python dict
assignment keeps the original insertion position on overwrite). -/
def aset {α β : Type} [DecidableEq α] : List (α × β) → α → β → List (α × β)
  | [], key, v => [(key, v)]
  | (k, w) :: rest, key, v =>
      if k = key then (k, v) :: rest else (k, w) :: aset rest key v

/-- `d.pop(k, None)`: remove the binding of `k` (if any). -/
def apop {α β : Type} [DecidableEq α] : List (α × β) → α → List (α × β)
  | [], _ => []
  | (k, w) :: rest, key => if k = key then rest else (k, w) :: apop rest key

/-- Keys of an assoc list. -/
def akeys {α β : Type} (d : List (α × β)) : List α := d.map Prod.fst

/-! ### Python `set` as insertion-ordered duplicate-free list -/

/-- `s.add(x)`: insert if absent (at the end). -/
def pyInsert {α : Type} [DecidableEq α] (s : List α) (x : α) : List α :=
  if x ∈ s then s else s ++ [x]

/-- `s.discard(x)` / `s.remove(x)`: drop every occurrence of `x`. -/
def pyErase {α : Type} [DecidableEq α] (s : List α) (x : α) : List α :=
  s.filter (fun y => y ≠ x)

/-- `s.update(xs)`: insert each element of `xs` in order. -/
def pyUpdate {α : Type} [DecidableEq α] (s : List α) (xs : List α) : List α :=
  xs.foldl pyInsert s

/-! ## Alert data model — `src/modules/alerts/models.py`

Fields that no claim touches (`user_id`, `notes`, `created_at`, `updated_at`,
`lhs_attr`, `last_triggered_at`, `last_triggered_price`, `type`) are omitted;
they are never read by the evaluator, manager or engine code under study. -/

/-- `Point(BaseModel)`: a trend-line point.  The pydantic field is named
`time`; the evaluator's `interpolate_trendline` reads `p.timestamp`, an
attribute that does not exist on this model. -/
structure Point where
  time : Rat
  price : Rat
  deriving Repr, DecidableEq

/-- `RHSAttr(BaseModel)`: pydantic model holding either a constant or a
trend-line.  As a pydantic `BaseModel` it has no `.get` method. -/
structure RHSAttr where
  constant : Option Rat := none
  trend_line : Option (List Point) := none
  deriving Repr, DecidableEq

/-- `Alert(BaseModel)` (claim-relevant fields). -/
structure Alert where
  id : String
  symbol : String
  is_active : Bool
  deleted_at : Option Rat := none
  lhs_type : String := "last_price"
  operator : String
  rhs_type : String
  rhs_attr : RHSAttr
  deriving Repr, DecidableEq

/-- `ChangeUpdate(BaseModel)`: a tick. -/
structure ChangeUpdate where
  symbol : String
  ltq : Rat
  ltp : Rat
  ltt : Rat
  deriving Repr, DecidableEq

/-- The `OPERATORS` mapping of `evaluator.py`: operator symbol to comparison.
`OPERATORS.get` on an unknown symbol yields `none`. -/
def OPERATORS (name : String) : Option (Rat → Rat → Bool) :=
  if name = ">" then some (fun a b => a > b)
  else if name = ">=" then some (fun a b => a ≥ b)
  else if name = "<" then some (fun a b => a < b)
  else if name = "<=" then some (fun a b => a ≤ b)
  else if name = "==" then some (fun a b => a = b)
  else if name = "!=" then some (fun a b => a ≠ b)
  else none

/-- `Alert.get_constant_value` (`models.py` lines 43-46).  The source runs
`self.rhs_attr.get("constant")` when `rhs_type == "constant"`, but `rhs_attr`
is an `RHSAttr` pydantic model, which has no `.get` attribute, so the call
raises `AttributeError`.  For any other `rhs_type` it returns `None`. -/
def Alert.get_constant_value (a : Alert) : Except PyErr (Option Rat) :=
  if a.rhs_type = "constant" then .error .attributeError
  else .ok none

/-- `Alert.get_trendline_points`: plain field read, never raises. -/
def Alert.get_trendline_points (a : Alert) : Option (List Point) :=
  a.rhs_attr.trend_line

/-- `interpolate_trendline(p1, p2, now)` (`evaluator.py` lines 60-76), embedded
faithfully: its first statement evaluates `p1.timestamp`, and `Point` has no
attribute `timestamp` (the field is named `time`), so every call raises
`AttributeError` before any comparison happens. -/
def interpolate_trendline (_p1 _p2 : Point) (_now : Rat) : Except PyErr (Option Rat) :=
  .error .attributeError

/-- The body of `interpolate_trendline` with the attribute read `p.timestamp`
resolved to the model's `time` field (the evident intent); used to state what
the interpolation logic computes modulo that broken attribute access.  Note it
uses the two points in the order given (no sorting), returns `none` when `now`
lies outside `[p1.time, p2.time]`, and returns `p1.price` (the first point's
price) when the two times coincide. -/
def interpolate_trendline_time (p1 p2 : Point) (now : Rat) : Option Rat :=
  if now < p1.time ∨ now > p2.time then none
  else
    let total_seconds := p2.time - p1.time
    let elapsed_seconds := now - p1.time
    if total_seconds = 0 then some p1.price
    else some (p1.price + (p2.price - p1.price) / total_seconds * elapsed_seconds)

/-- `evaluate_alert(alert, update)` (`evaluator.py` lines 19-57), with Python
exceptions explicit.  Note `if not points or len(points) != 2` treats a missing
or empty trend-line list as falsy. -/
def evaluate_alert (alert : Alert) (update : ChangeUpdate) : Except PyErr Bool :=
  if alert.lhs_type ≠ "last_price" then .ok false
  else
    let lhs_value := update.ltp
    if alert.rhs_type = "constant" then
      match alert.get_constant_value with
      | .error e => .error e
      | .ok none => .ok false
      | .ok (some rhs_value) =>
        match OPERATORS alert.operator with
        | none => .ok false
        | some op => .ok (op lhs_value rhs_value)
    else if alert.rhs_type = "trend_line" then
      match alert.get_trendline_points with
      | none => .ok false
      | some points =>
        if points.length ≠ 2 then .ok false
        else
          match points with
          | p1 :: p2 :: _ =>
            match interpolate_trendline p1 p2 update.ltt with
            | .error e => .error e
            | .ok none => .ok false
            | .ok (some rhs_value) =>
              match OPERATORS alert.operator with
              | none => .ok false
              | some op => .ok (op lhs_value rhs_value)
          | _ => .ok false
    else .ok false

/-! ## Alert manager — `src/modules/alerts/alert_manager.py`

`_alerts_by_symbol : dict[str, list[Alert]]` embedded as an insertion-ordered
association list. -/

/-- The symbol → alerts index. -/
abbrev Mgr := List (String × List Alert)

/-- `AlertManager.add_alert`: `setdefault(alert.symbol, []).append(alert)`. -/
def add_alert : Mgr → Alert → Mgr
  | [], a => [(a.symbol, [a])]
  | (s, xs) :: rest, a =>
      if s = a.symbol then (s, xs ++ [a]) :: rest
      else (s, xs) :: add_alert rest a

/-- `AlertManager.remove_alert`: in the bucket of `alert.symbol` (if any and
non-empty) drop every alert with the same `id`; delete the bucket if it
becomes empty. -/
def remove_alert : Mgr → Alert → Mgr
  | [], _ => []
  | (s, xs) :: rest, a =>
      if s = a.symbol then
        if xs.isEmpty then (s, xs) :: rest
        else
          let ys := xs.filter (fun b => b.id ≠ a.id)
          if ys.isEmpty then rest else (s, ys) :: rest
      else (s, xs) :: remove_alert rest a

/-- Drop the first alert with the given id from a bucket (`list.remove` of the
first alert found with that id). -/
def removeFirstById : List Alert → String → List Alert
  | [], _ => []
  | a :: rest, i => if a.id = i then rest else a :: removeFirstById rest i

/-- `AlertManager.remove_alert_by_id`: scan buckets in insertion order, remove
the first alert carrying the id, prune the bucket if emptied, and return the
removed alert. -/
def remove_alert_by_id : Mgr → String → Option Alert × Mgr
  | [], _ => (none, [])
  | (s, xs) :: rest, i =>
      match xs.find? (fun a => a.id = i) with
      | some a =>
          let ys := removeFirstById xs i
          (some a, if ys.isEmpty then rest else (s, ys) :: rest)
      | none =>
          let (r, m) := remove_alert_by_id rest i
          (r, (s, xs) :: m)

/-- `AlertManager.update_alert`: `remove_alert_by_id(alert.id)` then
`add_alert(alert)`; permits the symbol to change across versions. -/
def update_alert (m : Mgr) (a : Alert) : Mgr :=
  add_alert (remove_alert_by_id m a.id).2 a

/-- `AlertManager.get_alerts_for_symbol`. -/
def get_alerts_for_symbol (m : Mgr) (symbol : String) : List Alert :=
  (alookup m symbol).getD []

/-- `AlertManager.has_alerts_for_symbol`. -/
def has_alerts_for_symbol (m : Mgr) (symbol : String) : Bool :=
  match alookup m symbol with
  | some xs => ¬ xs.isEmpty
  | none => false

/-! ## Alert engine — `src/modules/alerts/engine.py` with the change-feed
routing of `src/modules/alerts/store.py`

The data provider is embedded by its subscription-set semantics (the
`MockDataProvider` of `provider.py`: `subscribe` adds the symbol to a set,
`unsubscribe` removes it; `TradingViewProvider` delegates to the scaler's
idempotent `add_tickers`/`remove_tickers`).  Dispatcher enqueues and store
writes have no effect on this state and are not modelled. -/

/-- Engine-owned state: the manager index and the provider's subscribed set. -/
structure EngineState where
  mgr : Mgr
  subs : List String
  deriving Repr, DecidableEq

/-- Change-feed events as delivered by the store adapter.  `store.py`
subscribes only to INSERT and UPDATE postgres changes; a deletion arrives as
an update with `deleted_at` set or `is_active = False` and is routed to the
delete handler by `AlertStore._handle_update`.  Ticks come from the quote
stream. -/
inductive FeedEvent where
  | insert (a : Alert)
  | update (a : Alert)
  | tick (u : ChangeUpdate)

/-- `AlertEngine._handle_insert`: `manager.add_alert(a)` then
`provider.subscribe(a.symbol)`. -/
def handle_insert (st : EngineState) (a : Alert) : EngineState :=
  { mgr := add_alert st.mgr a, subs := pyInsert st.subs a.symbol }

/-- `AlertEngine._handle_delete`: remove by id; if an alert was removed and no
alerts remain for its symbol, unsubscribe that symbol. -/
def handle_delete (st : EngineState) (a : Alert) : EngineState :=
  let (removed, m) := remove_alert_by_id st.mgr a.id
  match removed with
  | some r =>
      if has_alerts_for_symbol m r.symbol then { mgr := m, subs := st.subs }
      else { mgr := m, subs := pyErase st.subs r.symbol }
  | none => { mgr := m, subs := st.subs }

/-- `AlertStore._handle_update` routing plus `AlertEngine._handle_update`: a
row with `deleted_at` set or inactive is treated as a delete; otherwise
`manager.update_alert(a)` and `provider.subscribe(a.symbol)`.  The old symbol
of a symbol-changing update is never unsubscribed here. -/
def handle_update (st : EngineState) (a : Alert) : EngineState :=
  if a.deleted_at.isSome ∨ a.is_active = false then handle_delete st a
  else { mgr := update_alert st.mgr a, subs := pyInsert st.subs a.symbol }

/-- The per-alert loop of `AlertEngine._on_price_tick` over a snapshot of the
bucket: alerts that evaluate true are removed (dispatch and store mark have no
effect on this state); an exception from `evaluate_alert` aborts the loop and
propagates (second component `false`). -/
def tickLoop : Mgr → List Alert → ChangeUpdate → Mgr × Bool
  | m, [], _ => (m, true)
  | m, a :: rest, u =>
      match evaluate_alert a u with
      | .error _ => (m, false)
      | .ok true => tickLoop (remove_alert m a) rest u
      | .ok false => tickLoop m rest u

/-- `AlertEngine._on_price_tick`: empty bucket returns immediately; otherwise
run the loop, and — only if it completed without an exception — unsubscribe
the symbol when its bucket is now empty. -/
def on_tick (st : EngineState) (u : ChangeUpdate) : EngineState :=
  let alerts := get_alerts_for_symbol st.mgr u.symbol
  if alerts.isEmpty then st
  else
    let (m, completed) := tickLoop st.mgr alerts u
    if completed then
      if has_alerts_for_symbol m u.symbol then { mgr := m, subs := st.subs }
      else { mgr := m, subs := pyErase st.subs u.symbol }
    else { mgr := m, subs := st.subs }

/-- One engine step. -/
def engineStep (st : EngineState) : FeedEvent → EngineState
  | .insert a => handle_insert st a
  | .update a => handle_update st a
  | .tick u => on_tick st u

/-- `AlertEngine._sync_existing_alerts`: for each stored live alert,
`manager.add_alert` and `provider.subscribe`. -/
def engineStartup (alerts : List Alert) : EngineState :=
  alerts.foldl handle_insert { mgr := [], subs := [] }

/-- Process a whole change-feed/tick sequence. -/
def engineRun (events : List FeedEvent) (st : EngineState) : EngineState :=
  events.foldl engineStep st

/-- Symbols that currently hold at least one alert in the manager index. -/
def mgrSymbols (m : Mgr) : List String :=
  (m.filter (fun b => ¬ b.2.isEmpty)).map Prod.fst

/-! ## Quote scaler — `src/shared/provider/tradingview/quote_scaler.py`

State-relevant parts of `TradingViewScaler`: `nodes`, `ticker_to_node` and the
two mutating operations.  Tasks, streamers, event queues and the stored quotes
have no bearing on the claims and are not modelled. -/

/-- `StreamingNode` (the `id` is kept as the key of the `nodes` dict). -/
structure SNode where
  tickers : List String
  max_tickers : Nat
  deriving Repr, DecidableEq

/-- Scaler state. -/
structure ScalerState where
  nodes : List (String × SNode)
  ticker_to_node : List (String × String)
  max_connections : Nat
  max_tickers_per_connection : Nat
  deriving Repr, DecidableEq

/-- `node_assignments.setdefault(node_id, []).extend(to_add)`. -/
def asgnExtend (asgn : List (String × List String)) (k : String) (v : List String) :
    List (String × List String) :=
  match alookup asgn k with
  | some xs => aset asgn k (xs ++ v)
  | none => asgn ++ [(k, v)]

/-- Pass 1 of `add_tickers` (lines 65-71): walk existing nodes in insertion
order and fill each up to its remaining capacity (`capacity` is a Python int
and can be negative when a node is over-full). -/
def pass1Fill : List (String × SNode) → List String → List (String × List String) →
    List (String × List String) × List String
  | [], unassigned, asgn => (asgn, unassigned)
  | (node_id, node) :: rest, unassigned, asgn =>
      let capacity : Int := (node.max_tickers : Int) - node.tickers.length
      if 0 < capacity then
        let to_add := unassigned.take capacity.toNat
        if to_add.isEmpty then pass1Fill rest unassigned asgn
        else pass1Fill rest (unassigned.drop capacity.toNat) (asgnExtend asgn node_id to_add)
      else pass1Fill rest unassigned asgn

/-- Pass 2 of `add_tickers` (lines 73-77), fuel-indexed: `while unassigned and
len(self.nodes) < self.max_connections`.  Neither `self.nodes` nor the loop
condition changes inside the loop body, so `node_id =
f"node_{len(self.nodes) + 1}"` is the very same string on every iteration and
`node_assignments[node_id] = batch` overwrites the previous iteration's batch.
Every iteration with a positive `max_tickers_per_connection` strictly shrinks
`unassigned`, so fuel `unassigned.length + 1` is never exhausted (a zero cap
would make the source loop forever). -/
def pass2LoopF (numNodes maxConn mtpc : Nat) :
    Nat → List (String × List String) → List String → List (String × List String)
  | 0, asgn, _ => asgn
  | fuel + 1, asgn, unassigned =>
    if unassigned.isEmpty ∨ ¬ numNodes < maxConn then asgn
    else
      let node_id := "node_" ++ toString (numNodes + 1)
      let batch := unassigned.take mtpc
      pass2LoopF numNodes maxConn mtpc fuel (aset asgn node_id batch) (unassigned.drop mtpc)

/-- Pass 2 with sufficient fuel. -/
def pass2Loop (numNodes maxConn mtpc : Nat) (asgn : List (String × List String))
    (unassigned : List String) : List (String × List String) :=
  pass2LoopF numNodes maxConn mtpc (unassigned.length + 1) asgn unassigned

/-- Lines 79-83 of `add_tickers` for a single `(node_id, assigned)` item:
`self.nodes.setdefault(node_id, StreamingNode(...))` followed by
`node.tickers.update(assigned)`. -/
def scalerApplyOne (mtpc : Nat) (nodes : List (String × SNode)) (node_id : String)
    (assigned : List String) : List (String × SNode) :=
  match alookup nodes node_id with
  | some node => aset nodes node_id { node with tickers := pyUpdate node.tickers assigned }
  | none => nodes ++ [(node_id, { tickers := pyUpdate [] assigned, max_tickers := mtpc })]

/-- `TradingViewScaler._update_nodes` restricted to its effect on `self.nodes`:
a named node that is missing or whose ticker set is empty is torn down and
popped; every other named node keeps its tickers (its task restart does not
change this state). -/
def update_nodes (nodes : List (String × SNode)) (ids : List String) :
    List (String × SNode) :=
  ids.foldl
    (fun ns node_id =>
      match alookup ns node_id with
      | some node => if node.tickers.isEmpty then apop ns node_id else ns
      | none => ns)
    nodes

/-- `TradingViewScaler.add_tickers` (lines 56-85). -/
def add_tickers (st : ScalerState) (tickers : List String) : ScalerState :=
  let new_tickers := tickers.filter (fun t => (alookup st.ticker_to_node t).isNone)
  if new_tickers.isEmpty then st
  else
    let p1 := pass1Fill st.nodes new_tickers []
    let asgn := pass2Loop st.nodes.length st.max_connections st.max_tickers_per_connection
      p1.1 p1.2
    let st1 := asgn.foldl
      (fun s item =>
        { s with
          nodes := scalerApplyOne s.max_tickers_per_connection s.nodes item.1 item.2,
          ticker_to_node := item.2.foldl (fun d t => aset d t item.1) s.ticker_to_node })
      st
    { st1 with nodes := update_nodes st1.nodes (akeys asgn) }

/-- `TradingViewScaler.remove_tickers` (lines 87-104): pop each ticker from
`ticker_to_node`, discard it from its node's set, then tear down nodes that
became empty (`streamer.remove_symbols` and the quote store do not affect this
state). -/
def remove_tickers (st : ScalerState) (tickers : List String) : ScalerState :=
  let folded := tickers.foldl
    (fun (acc : ScalerState × List String) t =>
      match alookup acc.1.ticker_to_node t with
      | none => acc
      | some node_id =>
        let s := { acc.1 with ticker_to_node := apop acc.1.ticker_to_node t }
        match alookup s.nodes node_id with
        | none => (s, acc.2)
        | some node =>
          let node1 := { node with tickers := pyErase node.tickers t }
          ({ s with nodes := aset s.nodes node_id node1 }, pyInsert acc.2 node_id))
    (st, [])
  { folded.1 with nodes := update_nodes folded.1.nodes folded.2 }

/-- A fresh scaler (`TradingViewScaler.__init__`). -/
def scalerInit (maxConn mtpc : Nat) : ScalerState :=
  { nodes := [], ticker_to_node := [], max_connections := maxConn,
    max_tickers_per_connection := mtpc }

/-! ## Screener websocket session manager — `src/modules/api/ws.py` (the
`WSSession`/`ScreenerSession` pair; `src/modules/scanner/ws.py` lines 185-191
carry the identical subscribe logic)

The filter and sort entries are raw JSON dicts that the subscribe path stores
without inspecting; they are embedded as opaque strings.  `query_symbols`,
`live_symbols` prefetching and the realtime dispatcher task are external I/O
with no effect on the session map and are not modelled. -/

/-- `ScreenerSubscribeRequest` with its pydantic defaults. -/
structure ScreenerSubscribeRequest where
  session_id : String
  filters : List String := []
  filter_merge : String := "OR"
  sort : List String := []
  columns : List String := []
  range : List Int := []
  univ : Option (List String) := none
  deriving Repr, DecidableEq

/-- The sort-dict literal appended by `subscribe`/`patch`:
`\x7b"colId": "name", "sort": "ASC"\x7d`. -/
def nameAscSortEntry : String := "colId name sort ASC"

/-- Stored per-session state (`ScreenerSession` attributes). -/
structure ScreenerSessionState where
  session_id : String
  token : Option String
  univ : Option (List String)
  filters : List String
  filter_merge : String
  sort : List String
  columns : List String
  range : List Int
  deriving Repr, DecidableEq

/-- Messages actually sent over the websocket by the subscribe path. -/
inductive WSMsg where
  | screener_subscribed (session_id : String)
  | screener_duplicate (session_id : String)
  deriving Repr, DecidableEq

/-- `ScreenerSession.subscribe` field assignment (`api/ws.py` lines 120-128):
default columns when the list is empty, default range `(0, -1)` when fewer
than two entries, and the `name ASC` tiebreaker appended to `sort`. -/
def subscribeSession (tok : Option String) (t : ScreenerSubscribeRequest) :
    ScreenerSessionState :=
  { session_id := t.session_id
    token := tok
    univ := t.univ
    columns := if t.columns.length = 0 then ["ticker", "name", "logo", "day_close"]
               else t.columns
    range := if t.range.length < 2 then [0, -1] else t.range
    filters := t.filters
    filter_merge := t.filter_merge
    sort := t.sort ++ [nameAscSortEntry] }

/-- `WSSession.on_screener_subscribe` (`api/ws.py` lines 262-268,
`scanner/ws.py` lines 185-191): result is the new session map and the list of
messages actually sent to the client.  In the duplicate branch the source runs
`return self.ws.send_json(DuplicateScreenerResponse(...).model_dump())`
without `await`: the coroutine object is returned through `on_data` into
`listen`, which discards it unawaited, so no `SCREENER_DUPLICATE` message
reaches the wire.  In the fresh branch the session is stored and
`ScreenerSession.subscribe` awaits the `SCREENER_SUBSCRIBED` send. -/
def on_screener_subscribe (tok : Option String)
    (ss : List (String × ScreenerSessionState)) (t : ScreenerSubscribeRequest) :
    List (String × ScreenerSessionState) × List WSMsg :=
  if (alookup ss t.session_id).isSome then
    (ss, [])
  else
    (ss ++ [(t.session_id, subscribeSession tok t)],
     [WSMsg.screener_subscribed t.session_id])

/-! ## Ezscan expression evaluator —
`src/modules/ezscan/core/expression_evaluator.py` with the cache of
`src/modules/ezscan/utils/cache.py` and the per-symbol driver of
`src/modules/ezscan/core/scanner_engine.py`

The Python expression itself is evaluated by `eval` against a pandas sandbox;
under a fixed candle/metadata snapshot that evaluation is a pure function of
`(symbol, expression)`, embedded as an oracle parameter `evalSeries` (for
boolean series) or `valueOf` (for last values).  The cache is the
`ExpressionCache` dict (`get` returns `None` when disabled, `set` is a no-op
when disabled); its key `f"<symbol>_cond_<hash(expression)>"` is embedded as
the pair `(symbol, expression)`. -/

/-- Condition-series cache: key `(symbol, expression)` to cached bool series. -/
abbrev CondCache := List ((String × String) × List Bool)

/-- Python truthiness of a `pd.Series`: `bool(series)` raises `ValueError`
unless the series has exactly one element. -/
def seriesTruthiness (xs : List Bool) : Except PyErr Bool :=
  match xs with
  | [x] => .ok x
  | _ => .error .valueError

/-- `ExpressionCache.get` (returns `None` when disabled). -/
def condCacheGet (enabled : Bool) (c : CondCache) (k : String × String) :
    Option (List Bool) :=
  if enabled then alookup c k else none

/-- `ExpressionCache.set` (no-op when disabled). -/
def condCacheSet (enabled : Bool) (c : CondCache) (k : String × String)
    (v : List Bool) : CondCache :=
  if enabled then aset c k v else c

/-- `ExpressionEvaluator.evaluate_condition_expression` (lines 54-74).  The
cache check is `if cached_result := self.cache.get(cache_key):` — the walrus
result is a `pd.Series` on a hit, and its truthiness test raises `ValueError`
for any length-≠-1 series *outside* the `try` block, so the exception
propagates to the caller; a falsy (length-1 `False`) hit falls through and
recomputes. -/
def evaluate_condition_expression (enabled : Bool) (cache : CondCache)
    (evalSeries : String → String → List Bool) (symbol expr : String) :
    Except PyErr (List Bool × CondCache) :=
  match condCacheGet enabled cache (symbol, expr) with
  | some cached =>
    match seriesTruthiness cached with
    | .error e => .error e
    | .ok true => .ok (cached, cache)
    | .ok false =>
      let s := evalSeries symbol expr
      .ok (s, condCacheSet enabled cache (symbol, expr) s)
  | none =>
    let s := evalSeries symbol expr
    .ok (s, condCacheSet enabled cache (symbol, expr) s)

/-- `series.iloc[i]` for an integer position: Python negative indexing, raising
`IndexError` when out of range. -/
def pyIloc (xs : List Bool) (i : Int) : Except PyErr Bool :=
  let n : Int := xs.length
  let j := if i < 0 then n + i else i
  if 0 ≤ j ∧ j < n then .ok (xs.getD j.toNat false) else .error .indexError

/-- `series.tail(n)`: the last `n` elements for `n ≥ 0`, and everything after
the first `-n` elements for negative `n` (pandas semantics). -/
def pyTail (xs : List Bool) (n : Int) : List Bool :=
  if 0 ≤ n then xs.drop (xs.length - n.toNat) else xs.drop (-n).toNat

/-- Python truthiness of `Optional[int]`. -/
def intTruthy : Option Int → Bool
  | none => false
  | some v => v ≠ 0

/-- `ExpressionEvaluator.reduce_condition_by_period` (lines 285-299) with the
`iloc` accesses explicit.  A mode that is `None`, unknown, or whose `value` is
falsy falls through every branch to `return False`. -/
def reduce_condition_by_period (bool_series : List Bool) (mode : Option String)
    (value : Option Int) : Except PyErr Bool :=
  if bool_series.isEmpty then .ok false
  else if mode = some "now" then pyIloc bool_series (-1)
  else if mode = some "x_bar_ago" then
    if intTruthy value then
      let v := value.getD 0
      if v ≤ (bool_series.length : Int) then pyIloc bool_series (-v) else .ok false
    else .ok false
  else if mode = some "within_last" then
    if intTruthy value then .ok ((pyTail bool_series (value.getD 0)).any id)
    else .ok false
  else if mode = some "in_row" then
    if intTruthy value then
      let v := value.getD 0
      if v ≤ (bool_series.length : Int) then .ok ((pyTail bool_series v).all id)
      else .ok false
    else .ok false
  else .ok false

/-- The condition fields read by `_process_symbol_computed_conditions`. -/
structure Cond where
  expression : String
  evaluation_period : Option String := some "now"
  value : Option Int := none
  deriving Repr, DecidableEq

/-- `ScannerEngine._process_symbol_computed_conditions` (`scanner_engine.py`
lines 182-221): a symbol absent from `symbol_data` fails; otherwise each
condition is evaluated and reduced inside a `try` whose `except` records
`False`; an empty condition list passes; results combine under `logic`. -/
def process_symbol_computed_conditions (enabled : Bool) (cache : CondCache)
    (evalSeries : String → String → List Bool) (symbolInData : Bool)
    (symbol : String) (conds : List Cond) (logic : String) : Bool × CondCache :=
  if ¬ symbolInData then (false, cache)
  else
    let folded := conds.foldl
      (fun (acc : List Bool × CondCache) cond =>
        match evaluate_condition_expression enabled acc.2 evalSeries symbol
            cond.expression with
        | .error _ => (acc.1 ++ [false], acc.2)
        | .ok sc =>
          match reduce_condition_by_period sc.1 cond.evaluation_period cond.value with
          | .error _ => (acc.1 ++ [false], sc.2)
          | .ok b => (acc.1 ++ [b], sc.2))
      ([], cache)
    if folded.1.isEmpty then (true, folded.2)
    else (if logic = "and" then folded.1.all id else folded.1.any id, folded.2)

/-! ### Rank conditions (`evaluate_rank_condition`, lines 76-111) -/

/-- Rank cache key: `f"rank_<hash(expression)>_<rank_min>_<rank_max>_<hash(tuple(sorted(keys)))>"`
embedded as the tuple itself. -/
abbrev RankKey := String × Int × Int × List String

/-- Rank cache: key to the `symbol_ranks` dict. -/
abbrev RankCache := List (RankKey × List (String × Rat))

/-- `values_series.rank(method='min', pct=True) * 100` for one value: one plus
the number of strictly smaller values, as a percentage of the population. -/
def rankPctMin (vals : List (String × Rat)) (v : Rat) : Rat :=
  (((vals.countP (fun p => decide (p.2 < v))) + 1 : Nat) : Rat) / (vals.length : Rat) * 100

/-- `symbol_ranks.get(symbol)` followed by `rank_min <= rank <= rank_max`. -/
def rankWithin (ranks : List (String × Rat)) (symbol : String)
    (rank_min rank_max : Int) : Bool :=
  match alookup ranks symbol with
  | none => false
  | some r => decide ((rank_min : Rat) ≤ r) && decide (r ≤ (rank_max : Rat))

/-- `ExpressionEvaluator.evaluate_rank_condition`: `universe` is the key list
of `all_symbol_data` (duplicate-free, dict keys) and `valueOf` the per-symbol
result of `evaluate_value_expression` under the fixed snapshot (`none` covers
both `None` and NaN, which the source filters out).  A cached `symbol_ranks`
dict is used only when truthy (non-empty); with fewer than two valid values
the function returns `False` for the queried symbol *without* writing the
cache. -/
def evaluate_rank_condition (cache : RankCache) (valueOf : String → Option Rat)
    (univ : List String) (symbol expr : String) (rank_min rank_max : Int) :
    Bool × RankCache :=
  let key : RankKey := (expr, rank_min, rank_max, univ.mergeSort (fun a b => decide (a ≤ b)))
  let cached := alookup cache key
  let hit : Bool := match cached with
    | some ranks => !ranks.isEmpty
    | none => false
  if hit then (rankWithin (cached.getD []) symbol rank_min rank_max, cache)
  else
    let symbol_values := univ.filterMap (fun s => (valueOf s).map (fun v => (s, v)))
    if symbol_values.length < 2 then (false, cache)
    else
      let ranks := symbol_values.map (fun p => (p.1, rankPctMin symbol_values p.2))
      (rankWithin ranks symbol rank_min rank_max, aset cache key ranks)

/-! ## Quote stream codec —
`src/modules/core/provider/tradingview/quote_streamer.py`

Python strings are embedded as `List Char` (both are sequences of unicode code
points, so Python `len`/slicing match `List.length`/`take`/`drop`).  The
payload serializer is Python's `json.dumps` with its defaults
(`ensure_ascii=True`, separators `", "` and `": "`); JSON numbers are
restricted to integers (float repr formatting is out of scope).  `json.loads`
is external library code, modelled as a recursive-descent parser of the same
grammar (it accepts at least every `json.dumps` output; surrogate-pair
recombination of astral `\uXXXX` escapes is not modelled). -/

/-- A Python `str`. -/
abbrev PyStr := List Char

/-- Characters kept out of literals for clarity. -/
def quoteC : Char := Char.ofNat 34

/-- Backslash. -/
def bslashC : Char := Char.ofNat 92

/-- Opening curly brace. -/
def lbraceC : Char := Char.ofNat 123

/-- Closing curly brace. -/
def rbraceC : Char := Char.ofNat 125

/-- UTF-8 encoded size of one code point. -/
def utf8SizeOf (c : Char) : Nat :=
  if c.toNat < 0x80 then 1
  else if c.toNat < 0x800 then 2
  else if c.toNat < 0x10000 then 3
  else 4

/-- `len(s.encode("utf-8"))`. -/
def utf8Len (s : PyStr) : Nat := (s.map utf8SizeOf).sum

/-- ASCII decimal digit test. -/
def isDigitCh (c : Char) : Bool := 48 ≤ c.toNat && c.toNat ≤ 57

/-- Digit value of an ASCII digit. -/
def digitVal (c : Char) : Nat := c.toNat - 48

/-- Digit character of a value below ten. -/
def digitCh (d : Nat) : Char := Char.ofNat (48 + d)

/-- Little-endian base-10 digits, fuel-indexed (structural, so that concrete
encodings reduce in the kernel); agrees with `Nat.digits 10` once the fuel
reaches `n`. -/
def natDigitsF : Nat → Nat → List Nat
  | 0, _ => []
  | fuel + 1, n => if n = 0 then [] else n % 10 :: natDigitsF fuel (n / 10)

/-- Decimal digits of `n` without the `n = 0` special case. -/
def natToChars (n : Nat) : PyStr := (natDigitsF n n).reverse.map digitCh

/-- Python `str(n)` for a natural number. -/
def natToCharsPy (n : Nat) : PyStr := if n = 0 then ['0'] else natToChars n

/-- Python `str(n)` for an integer. -/
def intToChars (n : Int) : PyStr :=
  if n < 0 then '-' :: natToCharsPy n.natAbs else natToCharsPy n.toNat

/-- Lowercase hexadecimal digit character. -/
def hexDigitCh (d : Nat) : Char :=
  if d < 10 then Char.ofNat (48 + d) else Char.ofNat (87 + d)

/-- Four-digit lowercase hex rendering (`"%04x"` for values below `0x10000`). -/
def toHex4 (n : Nat) : PyStr :=
  [hexDigitCh (n / 4096 % 16), hexDigitCh (n / 256 % 16),
   hexDigitCh (n / 16 % 16), hexDigitCh (n % 16)]

mutual

/-- JSON values (numbers restricted to integers).  Arrays and objects carry
their own list types so that all recursions below are structural (mutual
inductives instead of a nested `List Json`). -/
inductive Json where
  | null
  | jbool (b : Bool)
  | jint (n : Int)
  | jstr (s : PyStr)
  | jarr (xs : JsonList)
  | jobj (fs : JsonFields)

/-- JSON array elements. -/
inductive JsonList where
  | nil
  | cons (hd : Json) (tl : JsonList)

/-- JSON object fields (ordered, as Python dicts are). -/
inductive JsonFields where
  | nil
  | cons (key : PyStr) (val : Json) (tl : JsonFields)

end

/-- `json.dumps` escaping of one character under `ensure_ascii=True`: the
two specials, the five named control escapes, raw printable ASCII, `\uXXXX`
for everything else in the BMP, and a UTF-16 surrogate pair beyond it. -/
def escapeChar (c : Char) : PyStr :=
  if c = quoteC then [bslashC, quoteC]
  else if c = bslashC then [bslashC, bslashC]
  else if c.toNat = 8 then [bslashC, 'b']
  else if c.toNat = 9 then [bslashC, 't']
  else if c.toNat = 10 then [bslashC, 'n']
  else if c.toNat = 12 then [bslashC, 'f']
  else if c.toNat = 13 then [bslashC, 'r']
  else if 0x20 ≤ c.toNat ∧ c.toNat ≤ 0x7e then [c]
  else if c.toNat < 0x10000 then bslashC :: 'u' :: toHex4 c.toNat
  else
    (bslashC :: 'u' :: toHex4 (0xD800 + (c.toNat - 0x10000) / 0x400)) ++
    (bslashC :: 'u' :: toHex4 (0xDC00 + (c.toNat - 0x10000) % 0x400))

/-- Escape a whole string. -/
def escapeStr (s : PyStr) : PyStr := (s.map escapeChar).flatten

/-- A dumped JSON string literal. -/
def dumpStr (s : PyStr) : PyStr := quoteC :: escapeStr s ++ [quoteC]

mutual

/-- `json.dumps` with default separators. -/
def json_dumps : Json → PyStr
  | .null => ['n', 'u', 'l', 'l']
  | .jbool true => ['t', 'r', 'u', 'e']
  | .jbool false => ['f', 'a', 'l', 's', 'e']
  | .jint n => intToChars n
  | .jstr s => dumpStr s
  | .jarr .nil => ['[', ']']
  | .jarr (.cons x xs) => '[' :: dumpsElems (.cons x xs) ++ [']']
  | .jobj .nil => [lbraceC, rbraceC]
  | .jobj (.cons k v fs) => lbraceC :: dumpsFields (.cons k v fs) ++ [rbraceC]

/-- Comma-joined array elements (separator `", "`). -/
def dumpsElems : JsonList → PyStr
  | .nil => []
  | .cons x .nil => json_dumps x
  | .cons x (.cons y ys) => json_dumps x ++ ',' :: ' ' :: dumpsElems (.cons y ys)

/-- Comma-joined object entries (separators `", "` and `": "`). -/
def dumpsFields : JsonFields → PyStr
  | .nil => []
  | .cons k v .nil => dumpStr k ++ ':' :: ' ' :: json_dumps v
  | .cons k v (.cons k2 v2 gs) =>
      dumpStr k ++ ':' :: ' ' :: json_dumps v ++ ',' :: ' ' :: dumpsFields (.cons k2 v2 gs)

end

/-- JSON whitespace. -/
def isWsCh (c : Char) : Bool :=
  c.toNat = 32 || c.toNat = 9 || c.toNat = 10 || c.toNat = 13

/-- Skip whitespace. -/
def skipWs (s : PyStr) : PyStr := s.dropWhile isWsCh

/-- Greedy digit run with accumulator. -/
def parseDigitsAcc : Nat → PyStr → Nat × PyStr
  | acc, [] => (acc, [])
  | acc, c :: cs =>
      if isDigitCh c then parseDigitsAcc (acc * 10 + digitVal c) cs else (acc, c :: cs)

/-- Nonempty digit run as a natural number. -/
def parseNatChars : PyStr → Option (Nat × PyStr)
  | [] => none
  | c :: cs => if isDigitCh c then some (parseDigitsAcc (digitVal c) cs) else none

/-- Integer literal (optional leading minus). -/
def parseIntChars : PyStr → Option (Int × PyStr)
  | c :: cs =>
      if c = '-' then (parseNatChars cs).map (fun p => (-(p.1 : Int), p.2))
      else (parseNatChars (c :: cs)).map (fun p => ((p.1 : Int), p.2))
  | [] => none

/-- Hex digit value (both cases). -/
def hexVal (c : Char) : Option Nat :=
  if 48 ≤ c.toNat ∧ c.toNat ≤ 57 then some (c.toNat - 48)
  else if 97 ≤ c.toNat ∧ c.toNat ≤ 102 then some (c.toNat - 87)
  else if 65 ≤ c.toNat ∧ c.toNat ≤ 70 then some (c.toNat - 55)
  else none

/-- Short-escape resolution. -/
def unescapeCh (c : Char) : Option Char :=
  if c = quoteC then some quoteC
  else if c = bslashC then some bslashC
  else if c = '/' then some '/'
  else if c = 'b' then some (Char.ofNat 8)
  else if c = 'f' then some (Char.ofNat 12)
  else if c = 'n' then some (Char.ofNat 10)
  else if c = 'r' then some (Char.ofNat 13)
  else if c = 't' then some (Char.ofNat 9)
  else none

/-- Body of a JSON string literal after the opening quote, up to and including
the closing quote. -/
def parseStringBody : PyStr → Option (PyStr × PyStr)
  | [] => none
  | c :: cs =>
      if c = quoteC then some ([], cs)
      else if c = bslashC then
        match cs with
        | [] => none
        | e :: cs2 =>
          if e = 'u' then
            match cs2 with
            | a :: b :: c2 :: d :: cs3 =>
              match hexVal a, hexVal b, hexVal c2, hexVal d with
              | some x, some y, some z, some w =>
                (parseStringBody cs3).map
                  (fun p => (Char.ofNat (x * 4096 + y * 256 + z * 16 + w) :: p.1, p.2))
              | _, _, _, _ => none
            | _ => none
          else
            match unescapeCh e with
            | some u => (parseStringBody cs2).map (fun p => (u :: p.1, p.2))
            | none => none
      else (parseStringBody cs).map (fun p => (c :: p.1, p.2))

mutual

/-- Recursive-descent JSON value parser (fuel-indexed). -/
def parseValue : Nat → PyStr → Option (Json × PyStr)
  | 0, _ => none
  | fuel + 1, s =>
    match s with
    | [] => none
    | c :: cs =>
      if c = 'n' then
        match cs with
        | 'u' :: 'l' :: 'l' :: rest => some (.null, rest)
        | _ => none
      else if c = 't' then
        match cs with
        | 'r' :: 'u' :: 'e' :: rest => some (.jbool true, rest)
        | _ => none
      else if c = 'f' then
        match cs with
        | 'a' :: 'l' :: 's' :: 'e' :: rest => some (.jbool false, rest)
        | _ => none
      else if c = quoteC then
        (parseStringBody cs).map (fun p => (.jstr p.1, p.2))
      else if c = '[' then
        match skipWs cs with
        | [] => none
        | d :: rest =>
            if d = ']' then some (.jarr .nil, rest)
            else (parseElems fuel (d :: rest)).map (fun p => (.jarr p.1, p.2))
      else if c = lbraceC then
        match skipWs cs with
        | [] => none
        | d :: rest =>
            if d = rbraceC then some (.jobj .nil, rest)
            else (parseFields fuel (d :: rest)).map (fun p => (.jobj p.1, p.2))
      else if c = '-' ∨ isDigitCh c then
        (parseIntChars (c :: cs)).map (fun p => (.jint p.1, p.2))
      else none

/-- Non-empty array tail: elements separated by commas, ended by `]` (which is
consumed). -/
def parseElems : Nat → PyStr → Option (JsonList × PyStr)
  | 0, _ => none
  | fuel + 1, s =>
    match parseValue fuel s with
    | none => none
    | some (v, rest) =>
      match skipWs rest with
      | [] => none
      | d :: rest2 =>
          if d = ',' then
            (parseElems fuel (skipWs rest2)).map (fun p => (.cons v p.1, p.2))
          else if d = ']' then some (.cons v .nil, rest2)
          else none

/-- Non-empty object tail: `"key": value` entries separated by commas, ended
by the closing brace (which is consumed). -/
def parseFields : Nat → PyStr → Option (JsonFields × PyStr)
  | 0, _ => none
  | fuel + 1, s =>
    match s with
    | [] => none
    | c :: cs =>
      if c = quoteC then
        match parseStringBody cs with
        | none => none
        | some (k, rest) =>
          match skipWs rest with
          | [] => none
          | d :: rest2 =>
            if d = ':' then
              match parseValue fuel (skipWs rest2) with
              | none => none
              | some (v, rest3) =>
                match skipWs rest3 with
                | [] => none
                | e :: rest4 =>
                  if e = ',' then
                    (parseFields fuel (skipWs rest4)).map (fun p => (.cons k v p.1, p.2))
                  else if e = rbraceC then some (.cons k v .nil, rest4)
                  else none
            else none
      else none

end

/-- `json.loads`: parse one value from the whole input, requiring only
whitespace to remain. -/
def json_loads (s : PyStr) : Option Json :=
  match parseValue (s.length + 1) (skipWs s) with
  | some (v, rest) => if (skipWs rest).isEmpty then some v else none
  | none => none

/-! ### Framing (`_encode_message` / `_decode_message`) -/

/-- The `~m~` frame marker. -/
def tildeM : PyStr := ['~', 'm', '~']

/-- One frame: `f"~m~<len(payload)>~m~<payload>"` — the length written is the
Python `len` of the payload string (its code-point count). -/
def encode_frame (payload : PyStr) : PyStr :=
  tildeM ++ natToCharsPy payload.length ++ tildeM ++ payload

/-- `TradingViewQuoteStreamer._encode_message` on a list of JSON objects
(lines 46-52): each item is `json.dumps`-serialized and framed, and the frames
are concatenated. -/
def encode_message (items : List Json) : PyStr :=
  (items.map (fun it => encode_frame (json_dumps it))).flatten

/-- `msg.startswith("~m~")`. -/
def startsWithTildeM : PyStr → Bool
  | c1 :: c2 :: c3 :: _ => c1 = '~' && c2 = 'm' && c3 = '~'
  | _ => false

/-- `msg.startswith("~h~")`. -/
def startsWithTildeH : PyStr → Bool
  | c1 :: c2 :: c3 :: _ => c1 = '~' && c2 = 'h' && c3 = '~'
  | _ => false

/-- `msg.find("~m~")`: index of the first occurrence, `none` when absent. -/
def findTildeM : PyStr → Option Nat
  | [] => none
  | c :: cs =>
      if startsWithTildeM (c :: cs) then some 0
      else (findTildeM cs).map (· + 1)

/-- `int(s)` on the length field; the source raises `ValueError` when the text
between the two markers is not a (non-empty) digit run. -/
def pyIntOfDigits (s : PyStr) : Except PyErr Nat :=
  if s.isEmpty then .error .valueError
  else if s.all isDigitCh then .ok (s.foldl (fun a c => a * 10 + digitVal c) 0)
  else .error .valueError

/-- The frame-splitting loop of `_decode_message` (lines 56-65), fuel-indexed:
while the message starts with `~m~`, strip it, locate the next `~m~` (`find`
returning -1 breaks the loop), parse the decimal length between them, and
slice out `length` code points of payload (Python slicing clamps at the end).
Each iteration strictly shrinks the message, so fuel `msg.length + 1` is never
exhausted; fuel 0 returns the empty split. -/
def splitFramesF : Nat → PyStr → Except PyErr (List PyStr)
  | 0, _ => .ok []
  | fuel + 1, msg =>
    if startsWithTildeM msg then
      let m := msg.drop 3
      match findTildeM m with
      | none => .ok []
      | some sep =>
        match pyIntOfDigits (m.take sep) with
        | .error e => .error e
        | .ok len =>
          let after := m.drop (sep + 3)
          match splitFramesF fuel (after.drop len) with
          | .error e => .error e
          | .ok rest => .ok (after.take len :: rest)
    else .ok []

/-- Frame splitting with sufficient fuel. -/
def splitFrames (msg : PyStr) : Except PyErr (List PyStr) :=
  splitFramesF (msg.length + 1) msg

/-- `TradingViewQuoteStreamer._decode_message` (lines 54-77): split frames,
echo heartbeat payloads (returned as the second component, in order), parse
payloads starting with a brace as JSON (parse failures are logged and
skipped), and discard everything else. -/
def decode_message (msg : PyStr) : Except PyErr (List Json × List PyStr) :=
  match splitFrames msg with
  | .error e => .error e
  | .ok decoded =>
    .ok (decoded.filterMap
          (fun m =>
            if startsWithTildeH m then none
            else
              match m with
              | c :: _ => if c = lbraceC then json_loads m else none
              | [] => none),
         decoded.filter (fun m => startsWithTildeH m))

/-! ### Well-formedness and parser-fuel measure for the codec claims -/

/-- All code points ASCII (the spec's framing note assumes ASCII/UTF-8 JSON
payloads; `json.dumps` escapes everything else). -/
def asciiStr (s : PyStr) : Bool := s.all (fun c => c.toNat < 0x80)

mutual

/-- Well-formed payload value: every string (key or value) is ASCII. -/
def wfJson : Json → Bool
  | .null => true
  | .jbool _ => true
  | .jint _ => true
  | .jstr s => asciiStr s
  | .jarr xs => wfJsonList xs
  | .jobj fs => wfJsonFields fs

/-- Well-formedness for element lists. -/
def wfJsonList : JsonList → Bool
  | .nil => true
  | .cons x xs => wfJson x && wfJsonList xs

/-- Well-formedness for field lists. -/
def wfJsonFields : JsonFields → Bool
  | .nil => true
  | .cons k v fs => asciiStr k && wfJson v && wfJsonFields fs

end

/-- A well-formed frame payload as in the round-trip claim: a JSON object all
of whose strings are ASCII. -/
def wfObjPayload : Json → Bool
  | .jobj fs => wfJsonFields fs
  | _ => false

mutual

/-- Fuel needed by `parseValue` for a value. -/
def jsize : Json → Nat
  | .null => 1
  | .jbool _ => 1
  | .jint _ => 1
  | .jstr _ => 1
  | .jarr xs => 1 + jsizeElems xs
  | .jobj fs => 1 + jsizeFields fs

/-- Fuel needed by `parseElems` for the elements of an array. -/
def jsizeElems : JsonList → Nat
  | .nil => 0
  | .cons x xs => 1 + max (jsize x) (jsizeElems xs)

/-- Fuel needed by `parseFields` for the fields of an object. -/
def jsizeFields : JsonFields → Nat
  | .nil => 0
  | .cons _ v gs => 1 + max (jsize v) (jsizeFields gs)

end

/-- First characters that a `json.dumps` output can start with. -/
def startCharOK (c : Char) : Bool :=
  c = 'n' || c = 't' || c = 'f' || c = quoteC || c = '[' || c = lbraceC ||
  c = '-' || isDigitCh c

/-- Input whose head is not a decimal digit (so a greedy number parse stops
exactly at a dumped number's end). -/
def headNotDigit : PyStr → Prop
  | [] => True
  | c :: _ => isDigitCh c = false

/-! ### Concrete fixtures used by the claim theorems -/

/-- A live constant alert (`>`, constant 100). -/
def c1alert : Alert :=
  { id := "A", symbol := "NSE:X", is_active := true, operator := ">",
    rhs_type := "constant", rhs_attr := { constant := some 100 } }

/-- A tick above the constant threshold. -/
def c1tick : ChangeUpdate := { symbol := "NSE:X", ltq := 10, ltp := 101, ltt := 0 }

/-- A live trend-line alert (`>=`) with points `(0, 100)` and `(100, 200)`. -/
def c2alert : Alert :=
  { id := "B", symbol := "NSE:X", is_active := true, operator := ">=",
    rhs_type := "trend_line",
    rhs_attr := { trend_line := some [{ time := 0, price := 100 }, { time := 100, price := 200 }] } }

/-- A tick inside the trend-line span whose interpolated threshold is 150. -/
def c2tick : ChangeUpdate := { symbol := "NSE:X", ltq := 10, ltp := 150, ltt := 50 }

/-- Alert inserted under symbol `S1`. -/
def c3a0 : Alert :=
  { id := "A", symbol := "S1", is_active := true, operator := ">",
    rhs_type := "constant", rhs_attr := { constant := some 100 } }

/-- The same alert updated to symbol `S2` (still live). -/
def c3a1 : Alert := { c3a0 with symbol := "S2" }

/-- Engine state after `insert c3a0` then the symbol-changing `update c3a1`. -/
def c3state : EngineState :=
  engineRun [.insert c3a0, .update c3a1] (engineStartup [])

/-- Five fresh tickers added to an empty scaler with `max_connections = 2`,
`max_tickers_per_connection = 3` (scenario S3 of the spec). -/
def c4state : ScalerState := add_tickers (scalerInit 2 3) ["a", "b", "c", "d", "e"]

/-- `max_connections = 2`, `max_tickers_per_connection = 2`: fill two nodes,
tear down the first, then add two more tickers (the fresh node id collides
with the surviving `node_2`). -/
def c6state : ScalerState :=
  add_tickers (remove_tickers (add_tickers (add_tickers (scalerInit 2 2) ["a", "b"]) ["c", "d"]) ["a", "b"]) ["e", "f"]

/-- One further add on `c6state` (grows the same node past total capacity). -/
def c6state2 : ScalerState := add_tickers c6state ["g", "h"]

/-- An established session for id `s1`. -/
def c8sess : ScreenerSessionState := subscribeSession none { session_id := "s1" }

/-- Session map already holding `s1`. -/
def c8map : List (String × ScreenerSessionState) := [("s1", c8sess)]

/-- A duplicate subscribe request for `s1`. -/
def c8req : ScreenerSubscribeRequest := { session_id := "s1", columns := ["ticker"] }

/-- Oracle: the condition expression evaluates to the boolean series
`[True, True]` over a two-bar frame (fixed snapshot). -/
def c5evalSeries : String → String → List Bool := fun _ _ => [true, true]

/-- Two computed conditions sharing one expression text: evaluated `now` and
`within_last 2`. -/
def c5conds : List Cond :=
  [{ expression := "c > o", evaluation_period := some "now", value := none },
   { expression := "c > o", evaluation_period := some "within_last", value := some 2 }]

/-- Rank-condition oracle: only symbol `A` has a valid value. -/
def c9valueOf : String → Option Rat := fun s => if s = "A" then some 5 else none

/-- Manager well-formedness: bucket keys are unique and no bucket is empty
(established by construction; `add_alert` creates only singleton or extended
buckets and both removal operations prune emptied buckets). -/
def MgrWF (m : Mgr) : Prop := (akeys m).Nodup ∧ ∀ b ∈ m, b.2 ≠ []

/-- The amended engine invariant: every symbol holding an alert is subscribed. -/
def subsInv (st : EngineState) : Prop := ∀ s ∈ mgrSymbols st.mgr, s ∈ st.subs

/-! # Claim theorems -/

/-- C1: the claim says that for a constant alert `evaluate_alert` applies the
operator to `(tick.ltp, rhs_attr.constant)` and returns that boolean (false
when the constant is missing, without raising).  In the source,
`Alert.get_constant_value` runs `self.rhs_attr.get("constant")` on the
`RHSAttr` pydantic model, which has no `.get`, so `evaluate_alert` raises
`AttributeError` for every constant alert; at the concrete failing input
(constant 100, operator `>`, ltp 101) it raises instead of returning `True`. -/
theorem C1_constant_alert_raises :
    evaluate_alert c1alert c1tick = .error .attributeError ∧
    ∀ b : Bool, evaluate_alert c1alert c1tick ≠ .ok b := by
  refine ⟨rfl, fun b h => ?_⟩
  rw [show evaluate_alert c1alert c1tick = .error .attributeError from rfl] at h
  exact Except.noConfusion h

/-- C2 counterexample: the claim predicts that this trend-line alert (points
`(0,100)` and `(100,200)`, operator `>=`) evaluated at the in-span tick
`(ltt = 50, ltp = 150)` returns the operator applied to the interpolated
threshold, i.e. `ok true`; the source raises `AttributeError` because
`interpolate_trendline` reads `p.timestamp` while `Point` defines `time`. -/
theorem C2_trendline_counterexample :
    evaluate_alert c2alert c2tick = .error .attributeError ∧
    evaluate_alert c2alert c2tick ≠ .ok true := by
  refine ⟨rfl, fun h => ?_⟩
  rw [show evaluate_alert c2alert c2tick = .error .attributeError from rfl] at h
  exact Except.noConfusion h

/-- C2 amended: (1) on every trend-line alert with exactly two points (and the
supported `last_price` lhs) `evaluate_alert` raises `AttributeError`, because
`interpolate_trendline` reads the non-existent attribute `timestamp` of
`Point`; (2) the interpolation logic itself — with that attribute read
resolved to the `time` field — uses the two points in stored order without
sorting, yields `none` (so the alert cannot fire) for tick times outside
`[p1.time, p2.time]` instead of extrapolating, yields the first point's price
when the two timestamps coincide, and otherwise interpolates linearly. -/
theorem C2_trendline_amended :
    (∀ (a : Alert) (u : ChangeUpdate) (p1 p2 : Point),
      a.lhs_type = "last_price" → a.rhs_type = "trend_line" →
      a.get_trendline_points = some [p1, p2] →
      evaluate_alert a u = .error .attributeError) ∧
    (∀ (p1 p2 : Point) (now : Rat),
      (now < p1.time ∨ now > p2.time → interpolate_trendline_time p1 p2 now = none) ∧
      (p1.time ≤ now → now ≤ p2.time → p1.time = p2.time →
        interpolate_trendline_time p1 p2 now = some p1.price) ∧
      (p1.time ≤ now → now ≤ p2.time → p1.time ≠ p2.time →
        interpolate_trendline_time p1 p2 now =
          some (p1.price + (p2.price - p1.price) / (p2.time - p1.time) * (now - p1.time)))) := by
  constructor
  · intro a u p1 p2 hl hr hp
    unfold evaluate_alert
    rw [hl, hr, hp]
    simp only [interpolate_trendline]
    norm_num
    exact fun hbad => absurd hbad (by decide)
  · intro p1 p2 now
    refine ⟨fun h => ?_, fun h1 h2 h3 => ?_, fun h1 h2 h3 => ?_⟩
    · simp only [interpolate_trendline_time, if_pos h]
    · have hout : ¬ (now < p1.time ∨ now > p2.time) := by
        push_neg
        exact ⟨h1, h2⟩
      simp only [interpolate_trendline_time, if_neg hout]
      rw [if_pos (by rw [h3]; ring)]
    · have hout : ¬ (now < p1.time ∨ now > p2.time) := by
        push_neg
        exact ⟨h1, h2⟩
      have hne : ¬ (p2.time - p1.time = 0) := fun h => h3 (by linarith [sub_eq_zero.mp h])
      simp only [interpolate_trendline_time, if_neg hout, if_neg hne]

/-- C2 amended, witness: the amended theorem applied at the concrete alert of
the counterexample and at its trend-line points. -/
theorem C2_trendline_amended_witness :
    evaluate_alert c2alert c2tick = .error .attributeError ∧
    interpolate_trendline_time { time := 0, price := 100 } { time := 100, price := 200 } 150 = none ∧
    interpolate_trendline_time { time := 0, price := 100 } { time := 100, price := 200 } 50 =
      some (100 + (200 - 100) / (100 - 0) * (50 - 0)) := by
  refine ⟨?_, ?_, ?_⟩
  · exact C2_trendline_amended.1 c2alert c2tick _ _ rfl rfl rfl
  · exact (C2_trendline_amended.2 { time := 0, price := 100 } { time := 100, price := 200 } 150).1
      (Or.inr (by norm_num))
  · exact (C2_trendline_amended.2 { time := 0, price := 100 } { time := 100, price := 200 } 50).2.2
      (by norm_num) (by norm_num) (by norm_num)

/-- C4: the claim predicts that adding five fresh tickers to an empty scaler
with `max_connections = 2`, `max_tickers_per_connection = 3` yields two nodes
of sizes 3 and 2 with `ticker_to_node` covering all five.  In the source the
pass-2 loop computes `node_id = f"node_{len(self.nodes) + 1}"` from a value
that never changes inside the loop and assigns
`node_assignments[node_id] = batch`, so the second batch overwrites the first:
the result is a single node holding only `["d", "e"]`, and `"a"`, `"b"`,
`"c"` are lost from both the nodes and `ticker_to_node`. -/
theorem C4_add_tickers_collapses_fresh_nodes :
    c4state.nodes = [("node_1", { tickers := ["d", "e"], max_tickers := 3 })] ∧
    c4state.ticker_to_node = [("d", "node_1"), ("e", "node_1")] ∧
    alookup c4state.ticker_to_node "a" = none ∧
    alookup c4state.ticker_to_node "b" = none ∧
    alookup c4state.ticker_to_node "c" = none := by
  refine ⟨rfl, rfl, rfl, rfl, rfl⟩

/-- C6: the claim asserts that in every reachable scaler state each node holds
at most `max_tickers_per_connection` tickers and the total stays within
`max_connections × max_tickers_per_connection`.  After tearing down `node_1`,
a later `add_tickers` recomputes the fresh id as `node_2` — colliding with the
surviving node — and `setdefault` merges the new batch into it: with caps
`2 × 2`, the reachable state `c6state` has a node of size 4 > 2, and one more
add (`c6state2`) drives the assigned total to 6 > 4.  (The
`ticker_to_node`-agreement conjunct of the claim does hold, as the states
below also show.) -/
theorem C6_capacity_invariant_violated :
    c6state.nodes = [("node_2", { tickers := ["c", "d", "e", "f"], max_tickers := 2 })] ∧
    (∃ b ∈ c6state.nodes, c6state.max_tickers_per_connection < b.2.tickers.length) ∧
    c6state2.nodes = [("node_2", { tickers := ["c", "d", "e", "f", "g", "h"], max_tickers := 2 })] ∧
    c6state2.max_connections * c6state2.max_tickers_per_connection <
      (c6state2.nodes.map (fun b => b.2.tickers.length)).sum := by
  refine ⟨rfl, ⟨("node_2", { tickers := ["c", "d", "e", "f"], max_tickers := 2 }), ?_, ?_⟩, rfl, ?_⟩
  · rw [show c6state.nodes = [("node_2", { tickers := ["c", "d", "e", "f"], max_tickers := 2 })] from rfl]
    exact List.mem_singleton.mpr rfl
  · show (2 : Nat) < 4
    norm_num
  · show (2 : Nat) * 2 < 6
    norm_num

/-- C8: the claim says a duplicate `SCREENER_SUBSCRIBE` makes the session
manager *send* a `SCREENER_DUPLICATE` response while leaving the session map
and the existing session untouched.  The state part holds, but the duplicate
branch returns `self.ws.send_json(...)` without `await`, so the coroutine is
discarded unawaited and nothing is sent: at the concrete duplicate request the
handler returns the unchanged map together with an empty send list rather
than `[SCREENER_DUPLICATE]`. -/
theorem C8_duplicate_subscribe_sends_nothing :
    on_screener_subscribe none c8map c8req = (c8map, []) ∧
    (on_screener_subscribe none c8map c8req).2 ≠ [WSMsg.screener_duplicate "s1"] := by
  refine ⟨rfl, fun h => ?_⟩
  rw [show (on_screener_subscribe none c8map c8req).2 = [] from rfl] at h
  exact List.noConfusion h

/-- C5: the claim says scan output is identical with the expression cache
enabled or disabled.  `evaluate_condition_expression` checks the cache with
`if cached_result := self.cache.get(cache_key):` — on a hit the walrus value
is a `pd.Series` whose truthiness raises `ValueError` outside the `try`, which
the caller `_process_symbol_computed_conditions` catches and records as
`False`.  With two conditions sharing one expression over an all-true two-bar
series the symbol passes with the cache disabled but fails with it enabled. -/
theorem C5_cache_changes_scan_output :
    (process_symbol_computed_conditions true [] c5evalSeries true "SYM" c5conds "and").1 = false ∧
    (process_symbol_computed_conditions false [] c5evalSeries true "SYM" c5conds "and").1 = true := by
  refine ⟨rfl, rfl⟩

/-- C9: with the rank key not cached (under a fixed snapshot the
fewer-than-two branch never populates it) and fewer than two symbols of the
universe producing a valid value, `evaluate_rank_condition` returns `False`
for every queried symbol, regardless of `rank_min`/`rank_max`, and writes
nothing to the cache. -/
theorem C9_rank_few_valid_false (cache : RankCache) (valueOf : String → Option Rat)
    (univ : List String) (symbol expr : String) (rank_min rank_max : Int)
    (hmiss : alookup cache
      (expr, rank_min, rank_max, univ.mergeSort (fun a b => decide (a ≤ b))) = none)
    (hfew : (univ.filterMap (fun s => (valueOf s).map (fun v => (s, v)))).length < 2) :
    evaluate_rank_condition cache valueOf univ symbol expr rank_min rank_max = (false, cache) := by
  simp only [evaluate_rank_condition]
  rw [hmiss]
  simp [hfew]

/-- C9 witness: empty cache, universe `["A", "B"]` with only `A` valid,
arbitrary symbol `A` and default rank bounds. -/
theorem C9_rank_few_valid_false_witness :
    alookup ([] : RankCache)
        ("expr", 1, 99, (["A", "B"] : List String).mergeSort (fun a b => decide (a ≤ b))) = none ∧
    ((["A", "B"] : List String).filterMap (fun s => (c9valueOf s).map (fun v => (s, v)))).length < 2 ∧
    evaluate_rank_condition [] c9valueOf ["A", "B"] "A" "expr" 1 99 = (false, []) :=
  ⟨rfl, by decide,
   C9_rank_few_valid_false [] c9valueOf ["A", "B"] "A" "expr" 1 99 rfl (by decide)⟩

/-- A negative `iloc` position backed by enough elements never raises. -/
theorem pyIloc_neg_some (xs : List Bool) (v : Int) (h1 : 0 < v)
    (h2 : v ≤ (xs.length : Int)) : ∃ b : Bool, pyIloc xs (-v) = .ok b := by
  refine ⟨xs.getD ((xs.length : Int) + -v).toNat false, ?_⟩
  simp only [pyIloc]
  rw [if_pos (show -v < (0 : Int) by omega)]
  rw [if_pos ⟨by omega, by omega⟩]

/-- C10: for every boolean series, every mode (including `None` and unknown
strings) and every `value` that is `None` or a positive integer,
`reduce_condition_by_period` returns a boolean (never raises); an empty
series yields `False` for any mode and value whatsoever; and when the series
is shorter than a positive `value` the `x_bar_ago` branch returns `False`
without reaching its `iloc` access. -/
theorem C10_reduce_never_raises (xs : List Bool) (mode : Option String) (value : Option Int)
    (hv : value = none ∨ ∃ v : Int, value = some v ∧ 0 < v) :
    (∃ b : Bool, reduce_condition_by_period xs mode value = .ok b) ∧
    (∀ (m : Option String) (w : Option Int), reduce_condition_by_period [] m w = .ok false) ∧
    (∀ v : Int, 0 < v → (xs.length : Int) < v →
      reduce_condition_by_period xs (some "x_bar_ago") (some v) = .ok false) := by
  refine ⟨?_, fun m w => by simp [reduce_condition_by_period], fun v hvpos hlt => ?_⟩
  · unfold reduce_condition_by_period
    by_cases he : xs.isEmpty
    · rw [if_pos he]
      exact ⟨false, rfl⟩
    · rw [if_neg he]
      have hlen : 1 ≤ (xs.length : Int) := by
        rcases xs with _ | ⟨a, t⟩
        · simp at he
        · simp only [List.length_cons]
          omega
      by_cases h1 : mode = some "now"
      · rw [if_pos h1]
        exact pyIloc_neg_some xs 1 (by norm_num) hlen
      · rw [if_neg h1]
        by_cases h2 : mode = some "x_bar_ago"
        · rw [if_pos h2]
          rcases hv with hv | ⟨v, hv, hvpos⟩
          · subst hv
            simp only [intTruthy, Bool.false_eq_true, if_false]
            exact ⟨false, rfl⟩
          · subst hv
            rw [if_pos (show intTruthy (some v) = true by simp [intTruthy]; omega)]
            simp only [Option.getD_some]
            by_cases h3 : v ≤ (xs.length : Int)
            · rw [if_pos h3]
              exact pyIloc_neg_some xs v hvpos h3
            · rw [if_neg h3]
              exact ⟨false, rfl⟩
        · rw [if_neg h2]
          by_cases h4 : mode = some "within_last"
          · rw [if_pos h4]
            by_cases h5 : intTruthy value = true
            · rw [if_pos h5]
              exact ⟨_, rfl⟩
            · rw [if_neg h5]
              exact ⟨false, rfl⟩
          · rw [if_neg h4]
            by_cases h6 : mode = some "in_row"
            · rw [if_pos h6]
              by_cases h7 : intTruthy value = true
              · rw [if_pos h7]
                by_cases h8 : value.getD 0 ≤ (xs.length : Int)
                · rw [if_pos h8]
                  exact ⟨_, rfl⟩
                · rw [if_neg h8]
                  exact ⟨false, rfl⟩
              · rw [if_neg h7]
                exact ⟨false, rfl⟩
            · rw [if_neg h6]
              exact ⟨false, rfl⟩
  · unfold reduce_condition_by_period
    by_cases he : xs.isEmpty
    · rw [if_pos he]
    · rw [if_neg he]
      rw [if_neg (show ¬ (some "x_bar_ago" : Option String) = some "now" by decide)]
      rw [if_pos rfl]
      rw [if_pos (show intTruthy (some v) = true by simp [intTruthy]; omega)]
      simp only [Option.getD_some]
      rw [if_neg (by omega)]

/-- C10 witness: the theorem applied at a two-element series with mode
`in_row` and value 2. -/
theorem C10_reduce_never_raises_witness :
    ((some 2 : Option Int) = none ∨ ∃ v : Int, (some 2 : Option Int) = some v ∧ 0 < v) ∧
    (∃ b : Bool, reduce_condition_by_period [true, false] (some "in_row") (some 2) = .ok b) :=
  ⟨Or.inr ⟨2, rfl, by norm_num⟩,
   (C10_reduce_never_raises [true, false] (some "in_row") (some 2)
     (Or.inr ⟨2, rfl, by norm_num⟩)).1⟩

/-! ### Support lemmas for the engine subscription invariant (C3) -/

/-- A successful lookup means the key is present. -/
theorem alookup_isSome_iff_mem_akeys {α β : Type} [DecidableEq α]
    (m : List (α × β)) (k : α) : (alookup m k).isSome ↔ k ∈ akeys m := by
  induction m with
  | nil => simp [alookup, akeys]
  | cons b rest ih =>
    obtain ⟨k2, v⟩ := b
    by_cases h : k2 = k
    · subst h
      simp [alookup, akeys]
    · simp [alookup, akeys, h, ih, Ne.symm h]

/-- A successful lookup returns a binding of the list. -/
theorem alookup_mem {α β : Type} [DecidableEq α] (m : List (α × β)) (k : α) (v : β)
    (h : alookup m k = some v) : (k, v) ∈ m := by
  induction m with
  | nil => simp [alookup] at h
  | cons b rest ih =>
    obtain ⟨k2, w⟩ := b
    by_cases hk : k2 = k
    · subst hk
      simp [alookup] at h
      simp [h]
    · simp [alookup, hk] at h
      exact List.mem_cons_of_mem _ (ih h)

/-- `mgrSymbols` lists keys. -/
theorem mgrSymbols_subset_akeys (m : Mgr) : mgrSymbols m ⊆ akeys m := by
  intro s hs
  simp only [mgrSymbols, List.mem_map] at hs
  obtain ⟨b, hb, rfl⟩ := hs
  exact List.mem_map_of_mem _ (List.mem_of_mem_filter hb)

/-- With no empty buckets, `mgrSymbols` is exactly the key list. -/
theorem mgrSymbols_eq_akeys (m : Mgr) (h : ∀ b ∈ m, b.2 ≠ []) :
    mgrSymbols m = akeys m := by
  unfold mgrSymbols akeys
  congr 1
  apply List.filter_eq_self.mpr
  intro b hb
  simpa [List.isEmpty_iff] using h b hb

/-- A present symbol answers `has_alerts_for_symbol` positively (under
well-formedness). -/
theorem has_alerts_of_mem_mgrSymbols (m : Mgr) (s : String) (hwf : MgrWF m)
    (hs : s ∈ mgrSymbols m) : has_alerts_for_symbol m s = true := by
  have hkeys : s ∈ akeys m := mgrSymbols_subset_akeys m hs
  have hsome : (alookup m s).isSome := (alookup_isSome_iff_mem_akeys m s).mpr hkeys
  obtain ⟨xs, hxs⟩ := Option.isSome_iff_exists.mp hsome
  have hmem := alookup_mem m s xs hxs
  have hne : xs ≠ [] := hwf.2 (s, xs) hmem
  simp [has_alerts_for_symbol, hxs, List.isEmpty_iff, hne]

/-- Keys after `add_alert`: the old keys plus possibly the alert's symbol. -/
theorem mem_akeys_add_alert (m : Mgr) (a : Alert) (x : String)
    (h : x ∈ akeys (add_alert m a)) : x ∈ akeys m ∨ x = a.symbol := by
  induction m with
  | nil =>
    simp [add_alert, akeys] at h
    exact Or.inr h
  | cons b rest ih =>
    obtain ⟨s, xs⟩ := b
    by_cases hs : s = a.symbol
    · subst hs
      have hstep : add_alert ((a.symbol, xs) :: rest) a = (a.symbol, xs ++ [a]) :: rest := by
        simp [add_alert]
      rw [hstep] at h
      simp only [akeys, List.map_cons, List.mem_cons] at h
      simp only [akeys, List.map_cons, List.mem_cons]
      exact Or.inl h
    · simp only [add_alert, if_neg hs, akeys, List.map_cons, List.mem_cons] at h
      simp only [akeys, List.map_cons, List.mem_cons]
      rcases h with h | h
      · exact Or.inl (Or.inl h)
      · rcases ih h with h2 | h2
        · exact Or.inl (Or.inr h2)
        · exact Or.inr h2

/-- `add_alert` preserves manager well-formedness. -/
theorem wf_add_alert (m : Mgr) (a : Alert) (hwf : MgrWF m) : MgrWF (add_alert m a) := by
  induction m with
  | nil =>
    refine ⟨by simp [add_alert, akeys], fun b hb => ?_⟩
    simp only [add_alert, List.mem_singleton] at hb
    subst hb
    simp
  | cons b rest ih =>
    obtain ⟨s, xs⟩ := b
    obtain ⟨hnd, hne⟩ := hwf
    simp only [akeys, List.map_cons, List.nodup_cons] at hnd
    have hwrest : MgrWF rest := ⟨hnd.2, fun b hb => hne b (List.mem_cons_of_mem _ hb)⟩
    by_cases hs : s = a.symbol
    · subst hs
      have hstep : add_alert ((a.symbol, xs) :: rest) a = (a.symbol, xs ++ [a]) :: rest := by
        simp [add_alert]
      refine ⟨by rw [hstep]; simpa [akeys] using hnd, fun b hb => ?_⟩
      rw [hstep] at hb
      simp only [List.mem_cons] at hb
      rcases hb with hb | hb
      · subst hb
        simp
      · exact hne b (List.mem_cons_of_mem _ hb)
    · obtain ⟨ihnd, ihne⟩ := ih hwrest
      constructor
      · simp only [add_alert, if_neg hs, akeys, List.map_cons, List.nodup_cons]
        refine ⟨fun hmem => ?_, ihnd⟩
        rcases mem_akeys_add_alert rest a s hmem with h2 | h2
        · exact hnd.1 h2
        · exact hs h2
      · intro b hb
        simp only [add_alert, if_neg hs, List.mem_cons] at hb
        rcases hb with hb | hb
        · subst hb
          exact hne (s, xs) (List.mem_cons_self _ _)
        · exact ihne b hb

/-- Keys after `remove_alert` form a sublist of the old keys. -/
theorem akeys_remove_alert_sublist (m : Mgr) (a : Alert) :
    List.Sublist (akeys (remove_alert m a)) (akeys m) := by
  induction m with
  | nil => simp [remove_alert]
  | cons b rest ih =>
    obtain ⟨s, xs⟩ := b
    by_cases hs : s = a.symbol
    · subst hs
      by_cases he : xs.isEmpty
      · have hstep : remove_alert ((a.symbol, xs) :: rest) a = (a.symbol, xs) :: rest := by
          simp [remove_alert, he]
        rw [hstep]
      · by_cases he2 : (xs.filter (fun b => b.id ≠ a.id)).isEmpty
        · have hstep : remove_alert ((a.symbol, xs) :: rest) a = rest := by
            simp only [remove_alert, if_pos rfl]
            rw [if_neg he, if_pos he2]
            simp
          rw [hstep]
          simp only [akeys, List.map_cons]
          exact (List.Sublist.refl _).cons _
        · have hstep : remove_alert ((a.symbol, xs) :: rest) a =
              (a.symbol, xs.filter (fun b => b.id ≠ a.id)) :: rest := by
            simp only [remove_alert, if_pos rfl]
            rw [if_neg he, if_neg he2]
            simp
          rw [hstep]
          simp [akeys]
    · have hstep : remove_alert ((s, xs) :: rest) a = (s, xs) :: remove_alert rest a := by
        simp [remove_alert, hs]
      rw [hstep]
      simpa [akeys] using ih.cons₂ s

/-- Buckets after `remove_alert` are old buckets or non-empty filtered ones. -/
theorem mem_remove_alert (m : Mgr) (a : Alert) (b : String × List Alert)
    (h : b ∈ remove_alert m a) : b ∈ m ∨ b.2 ≠ [] := by
  induction m with
  | nil => simp [remove_alert] at h
  | cons hd rest ih =>
    obtain ⟨s, xs⟩ := hd
    by_cases hs : s = a.symbol
    · subst hs
      by_cases he : xs.isEmpty
      · rw [show remove_alert ((a.symbol, xs) :: rest) a = (a.symbol, xs) :: rest from by
          simp [remove_alert, he]] at h
        exact Or.inl h
      · by_cases he2 : (xs.filter (fun b => b.id ≠ a.id)).isEmpty
        · rw [show remove_alert ((a.symbol, xs) :: rest) a = rest from by
            simp only [remove_alert, if_pos rfl]
            rw [if_neg he, if_pos he2]
            simp] at h
          exact Or.inl (List.mem_cons_of_mem _ h)
        · rw [show remove_alert ((a.symbol, xs) :: rest) a =
              (a.symbol, xs.filter (fun b => b.id ≠ a.id)) :: rest from by
            simp only [remove_alert, if_pos rfl]
            rw [if_neg he, if_neg he2]
            simp] at h
          rcases List.mem_cons.mp h with h | h
          · subst h
            right
            simpa [List.isEmpty_iff] using he2
          · exact Or.inl (List.mem_cons_of_mem _ h)
    · rw [show remove_alert ((s, xs) :: rest) a = (s, xs) :: remove_alert rest a from by
        simp [remove_alert, hs]] at h
      rcases List.mem_cons.mp h with h | h
      · exact Or.inl (by simp [h])
      · rcases ih h with h2 | h2
        · exact Or.inl (List.mem_cons_of_mem _ h2)
        · exact Or.inr h2

/-- `remove_alert` preserves manager well-formedness. -/
theorem wf_remove_alert (m : Mgr) (a : Alert) (hwf : MgrWF m) :
    MgrWF (remove_alert m a) :=
  ⟨(akeys_remove_alert_sublist m a).nodup hwf.1,
   fun b hb => (mem_remove_alert m a b hb).elim (hwf.2 b) id⟩

/-- Unfolding `remove_alert_by_id` at a bucket without the id. -/
theorem remove_by_id_cons_none (s : String) (xs : List Alert) (rest : Mgr) (i : String)
    (hfind : xs.find? (fun a => a.id = i) = none) :
    remove_alert_by_id ((s, xs) :: rest) i =
      ((remove_alert_by_id rest i).1, (s, xs) :: (remove_alert_by_id rest i).2) := by
  rcases hrm : remove_alert_by_id rest i with ⟨r, mm⟩
  simp [remove_alert_by_id, hfind, hrm]

/-- Unfolding `remove_alert_by_id` at the first bucket containing the id. -/
theorem remove_by_id_cons_some (s : String) (xs : List Alert) (rest : Mgr) (i : String)
    (a : Alert) (hfind : xs.find? (fun a => a.id = i) = some a) :
    remove_alert_by_id ((s, xs) :: rest) i =
      (some a, if (removeFirstById xs i).isEmpty then rest
               else (s, removeFirstById xs i) :: rest) := by
  simp [remove_alert_by_id, hfind]

/-- Keys after `remove_alert_by_id` form a sublist of the old keys. -/
theorem akeys_remove_by_id_sublist (m : Mgr) (i : String) :
    List.Sublist (akeys (remove_alert_by_id m i).2) (akeys m) := by
  induction m with
  | nil => simp [remove_alert_by_id]
  | cons hd rest ih =>
    obtain ⟨s, xs⟩ := hd
    cases hfind : xs.find? (fun a => a.id = i) with
    | none =>
      rw [remove_by_id_cons_none s xs rest i hfind]
      simpa [akeys] using ih.cons₂ s
    | some a =>
      rw [remove_by_id_cons_some s xs rest i a hfind]
      by_cases he : (removeFirstById xs i).isEmpty
      · rw [if_pos he]
        simp only [akeys, List.map_cons]
        exact (List.Sublist.refl _).cons _
      · rw [if_neg he]
        simp [akeys]

/-- Buckets after `remove_alert_by_id` are old buckets or non-empty ones. -/
theorem mem_remove_by_id (m : Mgr) (i : String) (b : String × List Alert)
    (h : b ∈ (remove_alert_by_id m i).2) : b ∈ m ∨ b.2 ≠ [] := by
  induction m with
  | nil => simp [remove_alert_by_id] at h
  | cons hd rest ih =>
    obtain ⟨s, xs⟩ := hd
    cases hfind : xs.find? (fun a => a.id = i) with
    | none =>
      rw [remove_by_id_cons_none s xs rest i hfind] at h
      rcases List.mem_cons.mp h with h | h
      · exact Or.inl (by simp [h])
      · rcases ih h with h2 | h2
        · exact Or.inl (List.mem_cons_of_mem _ h2)
        · exact Or.inr h2
    | some a =>
      rw [remove_by_id_cons_some s xs rest i a hfind] at h
      by_cases he : (removeFirstById xs i).isEmpty
      · rw [if_pos he] at h
        exact Or.inl (List.mem_cons_of_mem _ h)
      · rw [if_neg he] at h
        rcases List.mem_cons.mp h with h | h
        · subst h
          right
          simpa [List.isEmpty_iff] using he
        · exact Or.inl (List.mem_cons_of_mem _ h)

/-- `remove_alert_by_id` preserves manager well-formedness. -/
theorem wf_remove_by_id (m : Mgr) (i : String) (hwf : MgrWF m) :
    MgrWF (remove_alert_by_id m i).2 :=
  ⟨(akeys_remove_by_id_sublist m i).nodup hwf.1,
   fun b hb => (mem_remove_by_id m i b hb).elim (hwf.2 b) id⟩

/-- The tick loop only removes: well-formedness and a key sublist. -/
theorem tickLoop_wf_keys (l : List Alert) (u : ChangeUpdate) (m : Mgr) (hwf : MgrWF m) :
    MgrWF (tickLoop m l u).1 ∧ List.Sublist (akeys (tickLoop m l u).1) (akeys m) := by
  induction l generalizing m with
  | nil => exact ⟨hwf, List.Sublist.refl _⟩
  | cons a rest ih =>
    simp only [tickLoop]
    cases evaluate_alert a u with
    | error e => exact ⟨hwf, List.Sublist.refl _⟩
    | ok b =>
      cases b with
      | true =>
        obtain ⟨h1, h2⟩ := ih (remove_alert m a) (wf_remove_alert m a hwf)
        exact ⟨h1, h2.trans (akeys_remove_alert_sublist m a)⟩
      | false => exact ih m hwf

/-- `handle_delete` preserves well-formedness and the subscription superset. -/
theorem handle_delete_preserves (st : EngineState) (a : Alert)
    (hwf : MgrWF st.mgr) (hinv : subsInv st) :
    MgrWF (handle_delete st a).mgr ∧ subsInv (handle_delete st a) := by
  rcases hrm : remove_alert_by_id st.mgr a.id with ⟨removed, m2⟩
  have hm2 : (remove_alert_by_id st.mgr a.id).2 = m2 := by rw [hrm]
  have hwf2 : MgrWF m2 := hm2 ▸ wf_remove_by_id st.mgr a.id hwf
  have hsub : List.Sublist (akeys m2) (akeys st.mgr) :=
    hm2 ▸ akeys_remove_by_id_sublist st.mgr a.id
  have hmem : ∀ s, s ∈ mgrSymbols m2 → s ∈ st.subs := by
    intro s hs
    apply hinv
    rw [mgrSymbols_eq_akeys st.mgr hwf.2]
    exact hsub.subset (mgrSymbols_subset_akeys m2 hs)
  cases removed with
  | none =>
    have hstep : handle_delete st a = { mgr := m2, subs := st.subs } := by
      simp [handle_delete, hrm]
    rw [hstep]
    exact ⟨hwf2, fun s hs => hmem s hs⟩
  | some r =>
    by_cases hh : has_alerts_for_symbol m2 r.symbol
    · have hstep : handle_delete st a = { mgr := m2, subs := st.subs } := by
        simp [handle_delete, hrm, hh]
      rw [hstep]
      exact ⟨hwf2, fun s hs => hmem s hs⟩
    · have hstep : handle_delete st a = { mgr := m2, subs := pyErase st.subs r.symbol } := by
        simp [handle_delete, hrm, hh]
      rw [hstep]
      refine ⟨hwf2, fun s hs => ?_⟩
      have hne : s ≠ r.symbol := by
        intro heq
        exact hh (heq ▸ has_alerts_of_mem_mgrSymbols m2 s hwf2 hs)
      simp only [pyErase, List.mem_filter]
      exact ⟨hmem s hs, by simpa using hne⟩

/-- Every engine step preserves well-formedness and the superset invariant. -/
theorem engineStep_preserves (st : EngineState) (ev : FeedEvent)
    (hwf : MgrWF st.mgr) (hinv : subsInv st) :
    MgrWF (engineStep st ev).mgr ∧ subsInv (engineStep st ev) := by
  cases ev with
  | insert a =>
    refine ⟨wf_add_alert st.mgr a hwf, fun s hs => ?_⟩
    have hs2 := mgrSymbols_subset_akeys _ hs
    rcases mem_akeys_add_alert st.mgr a s hs2 with h | h
    · have : s ∈ st.subs := by
        apply hinv
        rw [mgrSymbols_eq_akeys st.mgr hwf.2]
        exact h
      simp only [engineStep, handle_insert, pyInsert]
      split
      · exact this
      · exact List.mem_append_left _ this
    · subst h
      simp only [engineStep, handle_insert, pyInsert]
      split
      · assumption
      · exact List.mem_append_right _ (List.mem_singleton.mpr rfl)
  | update a =>
    by_cases hd : a.deleted_at.isSome ∨ a.is_active = false
    · have hstep : engineStep st (.update a) = handle_delete st a := by
        simp [engineStep, handle_update, hd]
      rw [hstep]
      exact handle_delete_preserves st a hwf hinv
    · have hstep : engineStep st (.update a) =
          { mgr := update_alert st.mgr a, subs := pyInsert st.subs a.symbol } := by
        simp [engineStep, handle_update, hd]
      rw [hstep]
      have hwf2 : MgrWF (update_alert st.mgr a) :=
        wf_add_alert _ a (wf_remove_by_id st.mgr a.id hwf)
      refine ⟨hwf2, fun s hs => ?_⟩
      have hs2 := mgrSymbols_subset_akeys _ hs
      rcases mem_akeys_add_alert _ a s hs2 with h | h
      · have h3 : s ∈ akeys st.mgr := (akeys_remove_by_id_sublist st.mgr a.id).subset h
        have : s ∈ st.subs := by
          apply hinv
          rw [mgrSymbols_eq_akeys st.mgr hwf.2]
          exact h3
        simp only [pyInsert]
        split
        · exact this
        · exact List.mem_append_left _ this
      · subst h
        simp only [pyInsert]
        split
        · assumption
        · exact List.mem_append_right _ (List.mem_singleton.mpr rfl)
  | tick u =>
    by_cases hempty : (get_alerts_for_symbol st.mgr u.symbol).isEmpty
    · have hstep : engineStep st (.tick u) = st := by
        simp [engineStep, on_tick, hempty]
      rw [hstep]
      exact ⟨hwf, hinv⟩
    · rcases hrm : tickLoop st.mgr (get_alerts_for_symbol st.mgr u.symbol) u with ⟨m2, completed⟩
      have hm2 : (tickLoop st.mgr (get_alerts_for_symbol st.mgr u.symbol) u).1 = m2 := by
        rw [hrm]
      obtain ⟨hwf2, hsub⟩ := tickLoop_wf_keys (get_alerts_for_symbol st.mgr u.symbol) u st.mgr hwf
      rw [hm2] at hwf2 hsub
      have hmem : ∀ s, s ∈ mgrSymbols m2 → s ∈ st.subs := by
        intro s hs
        apply hinv
        rw [mgrSymbols_eq_akeys st.mgr hwf.2]
        exact hsub.subset (mgrSymbols_subset_akeys m2 hs)
      cases completed with
      | false =>
        have hstep : engineStep st (.tick u) = { mgr := m2, subs := st.subs } := by
          simp [engineStep, on_tick, hempty, hrm]
        rw [hstep]
        exact ⟨hwf2, fun s hs => hmem s hs⟩
      | true =>
        by_cases hh : has_alerts_for_symbol m2 u.symbol
        · have hstep : engineStep st (.tick u) = { mgr := m2, subs := st.subs } := by
            simp [engineStep, on_tick, hempty, hrm, hh]
          rw [hstep]
          exact ⟨hwf2, fun s hs => hmem s hs⟩
        · have hstep : engineStep st (.tick u) =
              { mgr := m2, subs := pyErase st.subs u.symbol } := by
            simp [engineStep, on_tick, hempty, hrm, hh]
          rw [hstep]
          refine ⟨hwf2, fun s hs => ?_⟩
          have hne : s ≠ u.symbol := by
            intro heq
            exact hh (heq ▸ has_alerts_of_mem_mgrSymbols m2 s hwf2 hs)
          simp only [pyErase, List.mem_filter]
          exact ⟨hmem s hs, by simpa using hne⟩

/-- Folding events preserves well-formedness and the superset invariant. -/
theorem engineRun_preserves (events : List FeedEvent) (st : EngineState)
    (hwf : MgrWF st.mgr) (hinv : subsInv st) :
    MgrWF (engineRun events st).mgr ∧ subsInv (engineRun events st) := by
  induction events generalizing st with
  | nil => exact ⟨hwf, hinv⟩
  | cons ev rest ih =>
    obtain ⟨h1, h2⟩ := engineStep_preserves st ev hwf hinv
    exact ih (engineStep st ev) h1 h2

/-- Folding inserts is running insert events. -/
theorem foldl_insert_eq_run (init : List Alert) (st : EngineState) :
    List.foldl handle_insert st init = engineRun (init.map FeedEvent.insert) st := by
  induction init generalizing st with
  | nil => rfl
  | cons a rest ih =>
    simpa [engineRun, List.foldl, engineStep] using ih (handle_insert st a)

/-- Startup is a fold of inserts. -/
theorem engineStartup_eq_run (init : List Alert) :
    engineStartup init = engineRun (init.map FeedEvent.insert) { mgr := [], subs := [] } :=
  foldl_insert_eq_run init _

/-- C3 counterexample: starting from an empty store, inserting alert `A` under
symbol `S1` and then processing a live update that moves it to `S2` leaves the
provider subscribed to both `S1` and `S2` while the manager holds an alert
only under `S2` — `_handle_update` subscribes the new symbol but never
unsubscribes the old one, so the claimed equality of the subscribed set with
the manager's symbol set fails. -/
theorem C3_subscription_equality_fails :
    c3state.subs = ["S1", "S2"] ∧
    mgrSymbols c3state.mgr = ["S2"] ∧
    "S1" ∈ c3state.subs ∧
    "S1" ∉ mgrSymbols c3state.mgr := by
  refine ⟨rfl, rfl, ?_, ?_⟩
  · rw [show c3state.subs = ["S1", "S2"] from rfl]
    simp
  · rw [show mgrSymbols c3state.mgr = ["S2"] from rfl]
    simp

/-- C3 amended: after the engine processes any change-feed/tick sequence from
any startup store contents, the set of symbols subscribed on the provider
*contains* every symbol currently holding an alert in the manager's index
(the reverse inclusion — hence the claimed equality — fails for
symbol-changing updates, see the counterexample). -/
theorem C3_subscriptions_superset (init : List Alert) (events : List FeedEvent) :
    ((mgrSymbols (engineRun events (engineStartup init)).mgr).all
      (fun s => (engineRun events (engineStartup init)).subs.contains s)) = true := by
  have hinit : MgrWF (engineStartup init).mgr ∧ subsInv (engineStartup init) := by
    rw [engineStartup_eq_run]
    apply engineRun_preserves
    · exact ⟨List.nodup_nil, fun b hb => absurd hb (List.not_mem_nil b)⟩
    · intro s hs
      simp [mgrSymbols] at hs
  obtain ⟨hwf, hinv⟩ := engineRun_preserves events (engineStartup init) hinit.1 hinit.2
  rw [List.all_eq_true]
  intro s hs
  have := hinv s hs
  simpa [List.contains] using List.elem_iff.mpr this

/-! ### Support lemmas for the codec round trip (C7): numbers -/

/-- The fuel-indexed digits agree with `Nat.digits 10`. -/
theorem natDigitsF_eq_digits : ∀ fuel n, n ≤ fuel → natDigitsF fuel n = Nat.digits 10 n := by
  intro fuel
  induction fuel with
  | zero =>
    intro n hn
    interval_cases n
    simp [natDigitsF]
  | succ f ih =>
    intro n hn
    by_cases h0 : n = 0
    · subst h0
      simp [natDigitsF]
    · rw [show natDigitsF (f + 1) n = n % 10 :: natDigitsF f (n / 10) from by
        simp [natDigitsF, h0]]
      rw [ih (n / 10) (by omega)]
      rw [Nat.digits_def' (by norm_num : 1 < 10) (Nat.pos_of_ne_zero h0)]

/-- Digits of `Nat.digits 10` are below ten. -/
theorem digits_lt_ten (n d : Nat) (h : d ∈ Nat.digits 10 n) : d < 10 :=
  Nat.digits_lt_base (by norm_num) h

/-- A digit character is a digit. -/
theorem isDigitCh_digitCh (d : Nat) (h : d < 10) : isDigitCh (digitCh d) = true := by
  interval_cases d <;> decide

/-- Digit value of a digit character. -/
theorem digitVal_digitCh (d : Nat) (h : d < 10) : digitVal (digitCh d) = d := by
  interval_cases d <;> decide

/-- Every character of `natToCharsPy` is a digit. -/
theorem natToCharsPy_all_digits (n : Nat) (c : Char) (h : c ∈ natToCharsPy n) :
    isDigitCh c = true := by
  unfold natToCharsPy at h
  by_cases h0 : n = 0
  · subst h0
    simp at h
    subst h
    decide
  · rw [if_neg h0] at h
    unfold natToChars at h
    rw [natDigitsF_eq_digits n n (Nat.le_refl n)] at h
    simp only [List.mem_map, List.mem_reverse] at h
    obtain ⟨d, hd, rfl⟩ := h
    exact isDigitCh_digitCh d (digits_lt_ten n d hd)

/-- `natToCharsPy` is never empty. -/
theorem natToCharsPy_ne_nil (n : Nat) : natToCharsPy n ≠ [] := by
  unfold natToCharsPy
  by_cases h0 : n = 0
  · simp [h0]
  · rw [if_neg h0]
    unfold natToChars
    rw [natDigitsF_eq_digits n n (Nat.le_refl n)]
    simp [Nat.digits_ne_nil_iff_ne_zero, h0]

/-- Greedy digit accumulation over digit characters followed by a non-digit. -/
theorem parseDigitsAcc_digits (ds : List Nat) (acc : Nat) (rest : PyStr)
    (hds : ∀ d ∈ ds, d < 10) (hrest : headNotDigit rest) :
    parseDigitsAcc acc (ds.map digitCh ++ rest) =
      (ds.foldl (fun a d => a * 10 + d) acc, rest) := by
  induction ds generalizing acc with
  | nil =>
    cases rest with
    | nil => simp [parseDigitsAcc]
    | cons c t =>
      simp only [headNotDigit] at hrest
      simp [parseDigitsAcc, hrest]
  | cons d ds ih =>
    have hd : d < 10 := hds d (List.mem_cons_self _ _)
    simp only [List.map_cons, List.cons_append, parseDigitsAcc,
      isDigitCh_digitCh d hd, if_pos, digitVal_digitCh d hd]
    simp only [List.append_eq]
    rw [ih (acc * 10 + d) (fun x hx => hds x (List.mem_cons_of_mem _ hx))]
    simp [List.foldl]

/-- Folding most-significant-first digits reconstructs the number. -/
theorem foldl_reverse_digits (n : Nat) :
    (Nat.digits 10 n).reverse.foldl (fun a d => a * 10 + d) 0 = n := by
  rw [List.foldl_reverse]
  have : ∀ L : List Nat, L.foldr (fun x y => y * 10 + x) 0 = Nat.ofDigits 10 L := by
    intro L
    induction L with
    | nil => simp [Nat.ofDigits]
    | cons d t ih =>
      simp only [List.foldr, ih, Nat.ofDigits_cons]
      ring
  rw [this]
  exact_mod_cast Nat.ofDigits_digits 10 n

/-- `parseNatChars` inverts `natToCharsPy`. -/
theorem parseNatChars_natToCharsPy (n : Nat) (rest : PyStr) (hrest : headNotDigit rest) :
    parseNatChars (natToCharsPy n ++ rest) = some (n, rest) := by
  by_cases h0 : n = 0
  · subst h0
    show parseNatChars ('0' :: rest) = some (0, rest)
    simp only [parseNatChars, show isDigitCh '0' = true from rfl, if_pos]
    rw [show digitVal '0' = 0 from rfl]
    have := parseDigitsAcc_digits [] 0 rest (by simp) hrest
    simp only [List.map_nil, List.nil_append] at this
    rw [this]
    simp
  · have hchars : natToCharsPy n = ((Nat.digits 10 n).reverse).map digitCh := by
      unfold natToCharsPy natToChars
      rw [if_neg h0, natDigitsF_eq_digits n n (Nat.le_refl n)]
    obtain ⟨ds, hds⟩ : ∃ ds, (Nat.digits 10 n).reverse = ds := ⟨_, rfl⟩
    have hall : ∀ d ∈ ds, d < 10 := by
      intro d hd
      exact digits_lt_ten n d (List.mem_reverse.mp (hds ▸ hd))
    cases ds with
    | nil =>
      exfalso
      apply h0
      have : Nat.digits 10 n = [] := by
        have := hds
        rwa [List.reverse_eq_nil_iff] at this
      rwa [Nat.digits_eq_nil_iff_eq_zero] at this
    | cons d dt =>
      have hd : d < 10 := hall d (List.mem_cons_self _ _)
      rw [hchars, hds]
      simp only [List.map_cons, List.cons_append, parseNatChars,
        isDigitCh_digitCh d hd, if_pos, digitVal_digitCh d hd]
      rw [parseDigitsAcc_digits dt d rest (fun x hx => hall x (List.mem_cons_of_mem _ hx)) hrest]
      have : (d :: dt).foldl (fun a x => a * 10 + x) 0 = n := by
        rw [← hds, foldl_reverse_digits]
      simp only [List.foldl] at this
      rw [show (0 * 10 + d) = d from by omega] at this
      rw [this]

/-- `parseIntChars` inverts `intToChars`. -/
theorem parseIntChars_intToChars (n : Int) (rest : PyStr) (hrest : headNotDigit rest) :
    parseIntChars (intToChars n ++ rest) = some (n, rest) := by
  by_cases hneg : n < 0
  · rw [show intToChars n = '-' :: natToCharsPy n.natAbs from by simp [intToChars, hneg]]
    show parseIntChars ('-' :: (natToCharsPy n.natAbs ++ rest)) = some (n, rest)
    simp only [parseIntChars, if_pos]
    rw [parseNatChars_natToCharsPy n.natAbs rest hrest]
    have habs : (-(n.natAbs : Int)) = n := by omega
    simp [habs]
    rw [abs_of_neg hneg]
    ring
  · rw [show intToChars n = natToCharsPy n.toNat from by simp [intToChars, hneg]]
    obtain ⟨c, t, hct⟩ : ∃ c t, natToCharsPy n.toNat = c :: t := by
      cases h : natToCharsPy n.toNat with
      | nil => exact absurd h (natToCharsPy_ne_nil _)
      | cons c t => exact ⟨c, t, rfl⟩
    have hdig : isDigitCh c = true :=
      natToCharsPy_all_digits n.toNat c (by rw [hct]; exact List.mem_cons_self _ _)
    have hcm : c ≠ '-' := by
      intro heq
      subst heq
      simp [isDigitCh] at hdig
    rw [hct]
    show parseIntChars (c :: (t ++ rest)) = some (n, rest)
    simp only [parseIntChars, if_neg hcm]
    have := parseNatChars_natToCharsPy n.toNat rest hrest
    rw [hct] at this
    simp only [List.cons_append] at this
    rw [this]
    have habs : ((n.toNat : Int)) = n := by omega
    simp [habs]

/-! ### Support lemmas for the codec round trip (C7): strings -/

/-- Whitespace skipping stops at a non-whitespace head. -/
theorem skipWs_not_ws (c : Char) (t : PyStr) (h : isWsCh c = false) :
    skipWs (c :: t) = c :: t := by
  simp [skipWs, List.dropWhile, h]

/-- Whitespace skipping eats a space. -/
theorem skipWs_space (t : PyStr) : skipWs (' ' :: t) = skipWs t := by
  simp [skipWs, List.dropWhile, show isWsCh ' ' = true from by decide]

/-- Hex digit characters parse back to their value. -/
theorem hexVal_hexDigitCh : ∀ d < 16, hexVal (hexDigitCh d) = some d := by
  decide

/-- Two-character escape sequences parse back to their character. -/
theorem parseStringBody_short_escape (e u : Char) (k : PyStr)
    (he : ¬ e = 'u') (hu : unescapeCh e = some u) :
    parseStringBody (bslashC :: e :: k) =
      (parseStringBody k).map (fun p => (u :: p.1, p.2)) := by
  conv_lhs => unfold parseStringBody
  rw [if_neg (show ¬ bslashC = quoteC from by decide), if_pos rfl]
  dsimp only
  rw [if_neg he, hu]

/-- A `\uXXXX` escape parses back to its BMP character. -/
theorem parseStringBody_hex_escape (n : Nat) (k : PyStr) :
    parseStringBody (bslashC :: 'u' :: toHex4 n ++ k) =
      (parseStringBody k).map (fun p => (Char.ofNat (n % 65536) :: p.1, p.2)) := by
  have e1 := hexVal_hexDigitCh (n / 4096 % 16) (Nat.mod_lt _ (by norm_num))
  have e2 := hexVal_hexDigitCh (n / 256 % 16) (Nat.mod_lt _ (by norm_num))
  have e3 := hexVal_hexDigitCh (n / 16 % 16) (Nat.mod_lt _ (by norm_num))
  have e4 := hexVal_hexDigitCh (n % 16) (Nat.mod_lt _ (by norm_num))
  show parseStringBody (bslashC :: 'u' :: hexDigitCh (n / 4096 % 16) ::
      hexDigitCh (n / 256 % 16) :: hexDigitCh (n / 16 % 16) :: hexDigitCh (n % 16) :: k) = _
  conv_lhs => unfold parseStringBody
  rw [if_neg (show ¬ bslashC = quoteC from by decide), if_pos rfl]
  dsimp only
  rw [if_pos rfl]
  rw [e1, e2, e3, e4]
  dsimp only
  rw [show n / 4096 % 16 * 4096 + n / 256 % 16 * 256 + n / 16 % 16 * 16 + n % 16 =
    n % 65536 from by omega]

/-- Escaping one ASCII character prepends exactly that character on parsing. -/
theorem parseStringBody_escapeChar (c : Char) (hc : c.toNat < 0x80) (k : PyStr) :
    parseStringBody (escapeChar c ++ k) =
      (parseStringBody k).map (fun p => (c :: p.1, p.2)) := by
  by_cases h1 : c = quoteC
  · subst h1
    rw [show escapeChar quoteC = [bslashC, quoteC] from by simp [escapeChar]]
    exact parseStringBody_short_escape quoteC quoteC k (by decide) (by decide)
  · by_cases h2 : c = bslashC
    · subst h2
      rw [show escapeChar bslashC = [bslashC, bslashC] from by
        simp [escapeChar, show ¬ bslashC = quoteC from by decide]]
      exact parseStringBody_short_escape bslashC bslashC k (by decide) (by decide)
    · by_cases h3 : c.toNat = 8
      · have hcq : c = Char.ofNat 8 := by
          rw [← h3]
          exact (Char.ofNat_toNat c).symm
        subst hcq
        rw [show escapeChar (Char.ofNat 8) = [bslashC, 'b'] from by
          simp [escapeChar, h1, h2]]
        exact parseStringBody_short_escape 'b' (Char.ofNat 8) k (by decide) (by decide)
      · by_cases h4 : c.toNat = 9
        · have hcq : c = Char.ofNat 9 := by
            rw [← h4]
            exact (Char.ofNat_toNat c).symm
          subst hcq
          rw [show escapeChar (Char.ofNat 9) = [bslashC, 't'] from by
            simp [escapeChar, h1, h2]]
          exact parseStringBody_short_escape 't' (Char.ofNat 9) k (by decide) (by decide)
        · by_cases h5 : c.toNat = 10
          · have hcq : c = Char.ofNat 10 := by
              rw [← h5]
              exact (Char.ofNat_toNat c).symm
            subst hcq
            rw [show escapeChar (Char.ofNat 10) = [bslashC, 'n'] from by
              simp [escapeChar, h1, h2]]
            exact parseStringBody_short_escape 'n' (Char.ofNat 10) k (by decide) (by decide)
          · by_cases h6 : c.toNat = 12
            · have hcq : c = Char.ofNat 12 := by
                rw [← h6]
                exact (Char.ofNat_toNat c).symm
              subst hcq
              rw [show escapeChar (Char.ofNat 12) = [bslashC, 'f'] from by
                simp [escapeChar, h1, h2]]
              exact parseStringBody_short_escape 'f' (Char.ofNat 12) k (by decide) (by decide)
            · by_cases h7 : c.toNat = 13
              · have hcq : c = Char.ofNat 13 := by
                  rw [← h7]
                  exact (Char.ofNat_toNat c).symm
                subst hcq
                rw [show escapeChar (Char.ofNat 13) = [bslashC, 'r'] from by
                  simp [escapeChar, h1, h2]]
                exact parseStringBody_short_escape 'r' (Char.ofNat 13) k (by decide) (by decide)
              · by_cases h8 : 0x20 ≤ c.toNat ∧ c.toNat ≤ 0x7e
                · rw [show escapeChar c = [c] from by
                    simp [escapeChar, h1, h2, h3, h4, h5, h6, h7, h8]]
                  show parseStringBody (c :: k) = _
                  conv_lhs => unfold parseStringBody
                  rw [if_neg h1, if_neg h2]
                · rw [show escapeChar c = bslashC :: 'u' :: toHex4 c.toNat from by
                    rw [escapeChar]
                    rw [if_neg h1, if_neg h2, if_neg h3, if_neg h4, if_neg h5, if_neg h6,
                      if_neg h7, if_neg h8, if_pos (by omega)]]
                  rw [parseStringBody_hex_escape c.toNat k]
                  rw [show c.toNat % 65536 = c.toNat from by omega]
                  rw [Char.ofNat_toNat c]

/-- The escaped body of an ASCII string parses back to the string. -/
theorem parseStringBody_escapeStr (s : PyStr) (rest : PyStr) (hs : asciiStr s = true) :
    parseStringBody (escapeStr s ++ quoteC :: rest) = some (s, rest) := by
  induction s with
  | nil =>
    show parseStringBody (quoteC :: rest) = some ([], rest)
    conv_lhs => unfold parseStringBody
    rw [if_pos rfl]
  | cons c t ih =>
    simp only [asciiStr, List.all_cons, Bool.and_eq_true, decide_eq_true_eq] at hs
    have hstep : escapeStr (c :: t) = escapeChar c ++ escapeStr t := by
      simp [escapeStr]
    rw [hstep, List.append_assoc, parseStringBody_escapeChar c hs.1]
    rw [ih (by simp [asciiStr, hs.2])]
    rfl

/-! ### Support lemmas for the codec round trip (C7): dumped values -/

/-- A digit head is none of the other value-start characters. -/
theorem digit_start_facts (c : Char) (h : isDigitCh c = true) :
    ¬ c = 'n' ∧ ¬ c = 't' ∧ ¬ c = 'f' ∧ ¬ c = quoteC ∧ ¬ c = '[' ∧ ¬ c = lbraceC := by
  refine ⟨?_, ?_, ?_, ?_, ?_, ?_⟩ <;>
    (intro hh; subst hh; exact absurd h (by decide))

/-- Start characters of dumped values are not whitespace and none of the
closing delimiters. -/
theorem startCharOK_facts (c : Char) (h : startCharOK c = true) :
    isWsCh c = false ∧ ¬ c = ']' ∧ ¬ c = rbraceC ∧ ¬ c = ',' := by
  simp only [startCharOK, Bool.or_eq_true, decide_eq_true_eq] at h
  rcases h with ((((((h | h) | h) | h) | h) | h) | h) | h
  · subst h; exact ⟨by decide, by decide, by decide, by decide⟩
  · subst h; exact ⟨by decide, by decide, by decide, by decide⟩
  · subst h; exact ⟨by decide, by decide, by decide, by decide⟩
  · subst h; exact ⟨by decide, by decide, by decide, by decide⟩
  · subst h; exact ⟨by decide, by decide, by decide, by decide⟩
  · subst h; exact ⟨by decide, by decide, by decide, by decide⟩
  · subst h; exact ⟨by decide, by decide, by decide, by decide⟩
  · have hn : 48 ≤ c.toNat ∧ c.toNat ≤ 57 := by
      simpa [isDigitCh, Bool.and_eq_true, decide_eq_true_eq] using h
    refine ⟨?_, ?_, ?_, ?_⟩
    · simp only [isWsCh]
      have : c.toNat ≠ 32 ∧ c.toNat ≠ 9 ∧ c.toNat ≠ 10 ∧ c.toNat ≠ 13 := by omega
      simp [this.1, this.2.1, this.2.2.1, this.2.2.2]
    · intro hh; subst hh; revert hn; decide
    · intro hh; subst hh; revert hn; decide
    · intro hh; subst hh; revert hn; decide

/-- `intToChars` starts with a minus sign or a digit. -/
theorem intToChars_start (n : Int) :
    ∃ c t, intToChars n = c :: t ∧ (c = '-' ∨ isDigitCh c = true) := by
  by_cases hneg : n < 0
  · exact ⟨'-', natToCharsPy n.natAbs, by simp [intToChars, hneg], Or.inl rfl⟩
  · obtain ⟨c, t, hct⟩ : ∃ c t, natToCharsPy n.toNat = c :: t := by
      cases h : natToCharsPy n.toNat with
      | nil => exact absurd h (natToCharsPy_ne_nil _)
      | cons c t => exact ⟨c, t, rfl⟩
    refine ⟨c, t, by simp [intToChars, hneg, hct], Or.inr ?_⟩
    exact natToCharsPy_all_digits n.toNat c (by rw [hct]; exact List.mem_cons_self _ _)

/-- Every dumped value starts with a recognised value-start character. -/
theorem dumps_start (v : Json) :
    ∃ c t, json_dumps v = c :: t ∧ startCharOK c = true := by
  cases v with
  | null => exact ⟨'n', _, rfl, by decide⟩
  | jbool b => cases b with
    | true => exact ⟨'t', _, rfl, by decide⟩
    | false => exact ⟨'f', _, rfl, by decide⟩
  | jint n =>
    obtain ⟨c, t, hct, hc⟩ := intToChars_start n
    refine ⟨c, t, by simp [json_dumps, hct], ?_⟩
    rcases hc with hc | hc
    · subst hc; decide
    · simp [startCharOK, hc]
  | jstr s => exact ⟨quoteC, _, rfl, by decide⟩
  | jarr xs => cases xs with
    | nil => exact ⟨'[', _, rfl, by decide⟩
    | cons x t => exact ⟨'[', _, rfl, by decide⟩
  | jobj fs => cases fs with
    | nil => exact ⟨lbraceC, _, rfl, by decide⟩
    | cons k v t => exact ⟨lbraceC, _, rfl, by decide⟩

/-- A dumped value is followed-context safe: its head is not a digit-start
problem for the *previous* token, i.e. dumped output never starts with a
whitespace character, so `skipWs` does not eat into it. -/
theorem skipWs_dumps (v : Json) (rest : PyStr) :
    skipWs (json_dumps v ++ rest) = json_dumps v ++ rest := by
  obtain ⟨c, t, hct, hok⟩ := dumps_start v
  rw [hct]
  exact skipWs_not_ws c _ (startCharOK_facts c hok).1

/-- Every decimal digit character comes from `digitCh`. -/
theorem exists_digitCh (c : Char) (h : isDigitCh c = true) :
    ∃ d, d < 10 ∧ c = digitCh d := by
  have hn : 48 ≤ c.toNat ∧ c.toNat ≤ 57 := by
    simpa [isDigitCh, Bool.and_eq_true, decide_eq_true_eq] using h
  refine ⟨c.toNat - 48, by omega, ?_⟩
  unfold digitCh
  rw [show 48 + (c.toNat - 48) = c.toNat from by omega]
  exact (Char.ofNat_toNat c).symm

/-- `parseValue` at a minus sign. -/
theorem parseValue_minus (fuel : Nat) (cs : PyStr) :
    parseValue (fuel + 1) ('-' :: cs) =
      (parseIntChars ('-' :: cs)).map (fun p => (.jint p.1, p.2)) := rfl

/-- `parseValue` at a digit. -/
theorem parseValue_digitCh (fuel : Nat) (d : Nat) (hd : d < 10) (cs : PyStr) :
    parseValue (fuel + 1) (digitCh d :: cs) =
      (parseIntChars (digitCh d :: cs)).map (fun p => (.jint p.1, p.2)) := by
  interval_cases d <;> rfl

/-- `parseValue` at a number start. -/
theorem parseValue_digit_or_minus (fuel : Nat) (c : Char) (cs : PyStr)
    (h7 : c = '-' ∨ isDigitCh c = true) :
    parseValue (fuel + 1) (c :: cs) =
      (parseIntChars (c :: cs)).map (fun p => (.jint p.1, p.2)) := by
  rcases h7 with h | h
  · subst h
    exact parseValue_minus fuel cs
  · obtain ⟨d, hd, rfl⟩ := exists_digitCh c h
    exact parseValue_digitCh fuel d hd cs

/-- `parseValue` at a string start. -/
theorem parseValue_quote (fuel : Nat) (cs : PyStr) :
    parseValue (fuel + 1) (quoteC :: cs) =
      (parseStringBody cs).map (fun p => (.jstr p.1, p.2)) := rfl

/-- `parseValue` at an array start. -/
theorem parseValue_lbracket (fuel : Nat) (cs : PyStr) :
    parseValue (fuel + 1) ('[' :: cs) =
      (match skipWs cs with
       | [] => none
       | d :: rest =>
           if d = ']' then some (.jarr .nil, rest)
           else (parseElems fuel (d :: rest)).map (fun p => (.jarr p.1, p.2))) := rfl

/-- `parseValue` at an object start. -/
theorem parseValue_lbrace (fuel : Nat) (cs : PyStr) :
    parseValue (fuel + 1) (lbraceC :: cs) =
      (match skipWs cs with
       | [] => none
       | d :: rest =>
           if d = rbraceC then some (.jobj .nil, rest)
           else (parseFields fuel (d :: rest)).map (fun p => (.jobj p.1, p.2))) := rfl

/-- One-step unfolding of `parseElems`. -/
theorem parseElems_succ (f : Nat) (s : PyStr) :
    parseElems (f + 1) s =
      match parseValue f s with
      | none => none
      | some (v, rest) =>
        match skipWs rest with
        | [] => none
        | d :: rest2 =>
            if d = ',' then
              (parseElems f (skipWs rest2)).map (fun p => (JsonList.cons v p.1, p.2))
            else if d = ']' then some (.cons v .nil, rest2)
            else none := rfl

/-- One-step unfolding of `parseFields`. -/
theorem parseFields_succ (f : Nat) (s : PyStr) :
    parseFields (f + 1) s =
      match s with
      | [] => none
      | c :: cs =>
        if c = quoteC then
          match parseStringBody cs with
          | none => none
          | some (k, rest) =>
            match skipWs rest with
            | [] => none
            | d :: rest2 =>
              if d = ':' then
                match parseValue f (skipWs rest2) with
                | none => none
                | some (v, rest3) =>
                  match skipWs rest3 with
                  | [] => none
                  | e :: rest4 =>
                    if e = ',' then
                      (parseFields f (skipWs rest4)).map
                        (fun p => (JsonFields.cons k v p.1, p.2))
                    else if e = rbraceC then some (.cons k v .nil, rest4)
                    else none
              else none
        else none := rfl

/-- The head of the rendering of a non-empty element list. -/
theorem dumpsElems_start (x : Json) (xs : JsonList) :
    ∃ c t, dumpsElems (.cons x xs) = c :: t ∧ startCharOK c = true := by
  obtain ⟨c, t, hct, hok⟩ := dumps_start x
  cases xs with
  | nil => exact ⟨c, t, by simp [dumpsElems, hct], hok⟩
  | cons y ys =>
    exact ⟨c, t ++ ',' :: ' ' :: dumpsElems (.cons y ys), by simp [dumpsElems, hct], hok⟩

/-- Sizes are positive. -/
theorem jsize_pos (v : Json) : 1 ≤ jsize v := by
  cases v <;> simp [jsize]

/-- The parser inverts the serializer (simultaneous fuel induction for
values, array elements and object fields). -/
theorem parse_dumps_triple : ∀ fuel : Nat,
    (∀ v rest, wfJson v = true → jsize v ≤ fuel → headNotDigit rest →
      parseValue fuel (json_dumps v ++ rest) = some (v, rest)) ∧
    (∀ x xs rest, wfJsonList (.cons x xs) = true → jsizeElems (.cons x xs) ≤ fuel →
      parseElems fuel (dumpsElems (.cons x xs) ++ ']' :: rest) = some (.cons x xs, rest)) ∧
    (∀ k v fs rest, wfJsonFields (.cons k v fs) = true → jsizeFields (.cons k v fs) ≤ fuel →
      parseFields fuel (dumpsFields (.cons k v fs) ++ rbraceC :: rest) =
        some (.cons k v fs, rest)) := by
  intro fuel
  induction fuel with
  | zero =>
    refine ⟨fun v rest hwf hsz _ => absurd hsz (by have := jsize_pos v; omega),
      fun x xs rest hwf hsz => absurd hsz (by simp [jsizeElems]),
      fun k v fs rest hwf hsz => absurd hsz (by simp [jsizeFields])⟩
  | succ f ih =>
    obtain ⟨ihV, ihE, ihF⟩ := ih
    refine ⟨?_, ?_, ?_⟩
    · -- values
      intro v rest hwf hsz hrest
      cases v with
      | null => exact rfl
      | jbool b => cases b with
        | true => exact rfl
        | false => exact rfl
      | jint n =>
        obtain ⟨c, t, hct, hc⟩ := intToChars_start n
        rw [show json_dumps (.jint n) = intToChars n from rfl, hct, List.cons_append,
          parseValue_digit_or_minus f c (t ++ rest) hc, ← List.cons_append, ← hct,
          parseIntChars_intToChars n rest hrest]
        rfl
      | jstr s =>
        have heq : json_dumps (.jstr s) ++ rest = quoteC :: (escapeStr s ++ quoteC :: rest) := by
          simp [json_dumps, dumpStr]
        rw [heq, parseValue_quote, parseStringBody_escapeStr s rest (by simpa [wfJson] using hwf)]
        rfl
      | jarr xs =>
        cases xs with
        | nil =>
          have heq : json_dumps (.jarr .nil) ++ rest = '[' :: ']' :: rest := by
            simp [json_dumps]
          rw [heq, parseValue_lbracket, skipWs_not_ws ']' rest (by decide)]
          simp
        | cons x xs =>
          have heq : json_dumps (.jarr (.cons x xs)) ++ rest =
              '[' :: (dumpsElems (.cons x xs) ++ ']' :: rest) := by
            simp [json_dumps]
          rw [heq, parseValue_lbracket]
          obtain ⟨c, t, hct, hok⟩ := dumpsElems_start x xs
          obtain ⟨hws, hbr, _, _⟩ := startCharOK_facts c hok
          rw [hct, List.cons_append, skipWs_not_ws c _ hws]
          dsimp only
          rw [if_neg hbr, ← List.cons_append, ← hct]
          rw [ihE x xs rest (by simpa [wfJson] using hwf)
            (by simp only [jsize] at hsz; omega)]
          rfl
      | jobj fs =>
        cases fs with
        | nil =>
          have heq : json_dumps (.jobj .nil) ++ rest = lbraceC :: rbraceC :: rest := by
            simp [json_dumps]
          rw [heq, parseValue_lbrace, skipWs_not_ws rbraceC rest (by decide)]
          simp
        | cons k v fs =>
          have heq : json_dumps (.jobj (.cons k v fs)) ++ rest =
              lbraceC :: (dumpsFields (.cons k v fs) ++ rbraceC :: rest) := by
            simp [json_dumps]
          rw [heq, parseValue_lbrace]
          have hdf : ∃ t, dumpsFields (.cons k v fs) = quoteC :: t := by
            cases fs with
            | nil =>
              exact ⟨escapeStr k ++ quoteC :: ':' :: ' ' :: json_dumps v,
                by simp [dumpsFields, dumpStr]⟩
            | cons k2 v2 gs =>
              exact ⟨escapeStr k ++ quoteC :: ':' :: ' ' ::
                  (json_dumps v ++ ',' :: ' ' :: dumpsFields (.cons k2 v2 gs)),
                by simp [dumpsFields, dumpStr]⟩
          obtain ⟨t, hct⟩ := hdf
          rw [hct, List.cons_append, skipWs_not_ws quoteC _ (by decide)]
          dsimp only
          rw [if_neg (show ¬ quoteC = rbraceC from by decide), ← List.cons_append, ← hct]
          rw [ihF k v fs rest (by simpa [wfJson] using hwf)
            (by simp only [jsize] at hsz; omega)]
          rfl
    · -- elements
      intro x xs rest hwf hsz
      simp only [wfJsonList, Bool.and_eq_true] at hwf
      cases xs with
      | nil =>
        have heq : dumpsElems (.cons x .nil) ++ ']' :: rest = json_dumps x ++ ']' :: rest := by
          simp [dumpsElems]
        rw [heq, parseElems_succ]
        rw [ihV x (']' :: rest) hwf.1
          (by simp only [jsizeElems] at hsz; omega) rfl]
        dsimp only
        rw [skipWs_not_ws ']' rest (by decide)]
        dsimp only
        rw [if_neg (show ¬ (']' : Char) = ',' from by decide), if_pos rfl]
      | cons y ys =>
        have heq : dumpsElems (.cons x (.cons y ys)) ++ ']' :: rest =
            json_dumps x ++ ',' :: ' ' :: (dumpsElems (.cons y ys) ++ ']' :: rest) := by
          simp [dumpsElems]
        rw [heq, parseElems_succ]
        rw [ihV x (',' :: ' ' :: (dumpsElems (.cons y ys) ++ ']' :: rest)) hwf.1
          (by simp only [jsizeElems] at hsz ⊢; omega) rfl]
        dsimp only
        rw [skipWs_not_ws ',' _ (by decide)]
        dsimp only
        rw [if_pos rfl, skipWs_space]
        obtain ⟨c, t, hct, hok⟩ := dumpsElems_start y ys
        rw [hct, List.cons_append, skipWs_not_ws c _ (startCharOK_facts c hok).1,
          ← List.cons_append, ← hct]
        rw [ihE y ys rest (by simpa [wfJsonList, Bool.and_eq_true] using hwf.2)
          (by simp only [jsizeElems] at hsz ⊢; omega)]
        rfl
    · -- fields
      intro k v fs rest hwf hsz
      simp only [wfJsonFields, Bool.and_eq_true] at hwf
      cases fs with
      | nil =>
        have heq : dumpsFields (.cons k v .nil) ++ rbraceC :: rest =
            quoteC :: (escapeStr k ++ quoteC ::
              (':' :: ' ' :: (json_dumps v ++ rbraceC :: rest))) := by
          simp [dumpsFields, dumpStr]
        rw [heq, parseFields_succ]
        dsimp only
        rw [if_pos rfl, parseStringBody_escapeStr k _ hwf.1.1]
        dsimp only
        rw [skipWs_not_ws ':' _ (by decide)]
        dsimp only
        rw [if_pos rfl, skipWs_space, skipWs_dumps v]
        rw [ihV v (rbraceC :: rest) hwf.1.2
          (by simp only [jsizeFields] at hsz; omega) rfl]
        dsimp only
        rw [skipWs_not_ws rbraceC rest (by decide)]
        dsimp only
        rw [if_neg (show ¬ rbraceC = ',' from by decide), if_pos rfl]
      | cons k2 v2 gs =>
        have heq : dumpsFields (.cons k v (.cons k2 v2 gs)) ++ rbraceC :: rest =
            quoteC :: (escapeStr k ++ quoteC ::
              (':' :: ' ' :: (json_dumps v ++ ',' :: ' ' ::
                (dumpsFields (.cons k2 v2 gs) ++ rbraceC :: rest)))) := by
          simp [dumpsFields, dumpStr]
        rw [heq, parseFields_succ]
        dsimp only
        rw [if_pos rfl, parseStringBody_escapeStr k _ hwf.1.1]
        dsimp only
        rw [skipWs_not_ws ':' _ (by decide)]
        dsimp only
        rw [if_pos rfl, skipWs_space, skipWs_dumps v]
        rw [ihV v (',' :: ' ' :: (dumpsFields (.cons k2 v2 gs) ++ rbraceC :: rest)) hwf.1.2
          (by simp only [jsizeFields] at hsz ⊢; omega) rfl]
        dsimp only
        rw [skipWs_not_ws ',' _ (by decide)]
        dsimp only
        rw [if_pos rfl, skipWs_space]
        have hdf : ∃ t, dumpsFields (.cons k2 v2 gs) = quoteC :: t := by
          cases gs with
          | nil =>
            exact ⟨escapeStr k2 ++ quoteC :: ':' :: ' ' :: json_dumps v2,
              by simp [dumpsFields, dumpStr]⟩
          | cons k3 v3 hs =>
            exact ⟨escapeStr k2 ++ quoteC :: ':' :: ' ' ::
                (json_dumps v2 ++ ',' :: ' ' :: dumpsFields (.cons k3 v3 hs)),
              by simp [dumpsFields, dumpStr]⟩
        obtain ⟨t, hct⟩ := hdf
        rw [hct, List.cons_append, skipWs_not_ws quoteC _ (by decide), ← List.cons_append, ← hct]
        rw [ihF k2 v2 gs rest (by simpa [wfJsonFields, Bool.and_eq_true] using hwf.2)
          (by simp only [jsizeFields] at hsz ⊢; omega)]
        rfl

mutual

/-- Parsing fuel is covered by the rendered length. -/
theorem jsize_le_dumps : ∀ v : Json, jsize v ≤ (json_dumps v).length
  | .null => by simp [jsize, json_dumps]
  | .jbool b => by cases b <;> simp [jsize, json_dumps]
  | .jint n => by
    simp only [jsize, json_dumps]
    have hne : intToChars n ≠ [] := by
      unfold intToChars
      split
      · simp
      · exact natToCharsPy_ne_nil _
    cases h : intToChars n with
    | nil => exact absurd h hne
    | cons c t => simp
  | .jstr s => by simp [jsize, json_dumps, dumpStr]
  | .jarr xs => by
    have h := jsizeElems_le_dumps xs
    cases xs with
    | nil => simp [jsize, jsizeElems, json_dumps]
    | cons x t =>
      rw [show jsize (.jarr (.cons x t)) = 1 + jsizeElems (.cons x t) from rfl,
        show json_dumps (.jarr (.cons x t)) = '[' :: dumpsElems (.cons x t) ++ [']'] from rfl]
      simp only [List.length_cons, List.length_append, List.length_singleton]
      omega
  | .jobj fs => by
    have h := jsizeFields_le_dumps fs
    cases fs with
    | nil => simp [jsize, jsizeFields, json_dumps]
    | cons k v t =>
      rw [show jsize (.jobj (.cons k v t)) = 1 + jsizeFields (.cons k v t) from rfl,
        show json_dumps (.jobj (.cons k v t)) =
          lbraceC :: dumpsFields (.cons k v t) ++ [rbraceC] from rfl]
      simp only [List.length_cons, List.length_append, List.length_singleton]
      omega

/-- Element fuel is covered by one more than the rendered element length. -/
theorem jsizeElems_le_dumps : ∀ xs : JsonList, jsizeElems xs ≤ 1 + (dumpsElems xs).length
  | .nil => by simp [jsizeElems]
  | .cons x xs => by
    have h1 := jsize_le_dumps x
    have h2 := jsizeElems_le_dumps xs
    cases xs with
    | nil =>
      rw [show jsizeElems (.cons x .nil) = 1 + max (jsize x) (jsizeElems .nil) from rfl,
        show dumpsElems (.cons x .nil) = json_dumps x from rfl,
        show jsizeElems .nil = 0 from rfl]
      omega
    | cons y ys =>
      rw [show jsizeElems (.cons x (.cons y ys)) =
          1 + max (jsize x) (jsizeElems (.cons y ys)) from rfl,
        show dumpsElems (.cons x (.cons y ys)) =
          json_dumps x ++ ',' :: ' ' :: dumpsElems (.cons y ys) from rfl]
      simp only [List.length_append, List.length_cons]
      omega

/-- Field fuel is covered by one more than the rendered field length. -/
theorem jsizeFields_le_dumps : ∀ fs : JsonFields, jsizeFields fs ≤ 1 + (dumpsFields fs).length
  | .nil => by simp [jsizeFields]
  | .cons k v fs => by
    have h1 := jsize_le_dumps v
    have h2 := jsizeFields_le_dumps fs
    cases fs with
    | nil =>
      rw [show jsizeFields (.cons k v .nil) = 1 + max (jsize v) (jsizeFields .nil) from rfl,
        show dumpsFields (.cons k v .nil) = dumpStr k ++ ':' :: ' ' :: json_dumps v from rfl,
        show jsizeFields .nil = 0 from rfl]
      simp only [List.length_append, List.length_cons]
      omega
    | cons k2 v2 gs =>
      rw [show jsizeFields (.cons k v (.cons k2 v2 gs)) =
          1 + max (jsize v) (jsizeFields (.cons k2 v2 gs)) from rfl,
        show dumpsFields (.cons k v (.cons k2 v2 gs)) =
          dumpStr k ++ ':' :: ' ' :: json_dumps v ++ ',' :: ' ' ::
            dumpsFields (.cons k2 v2 gs) from rfl]
      simp only [List.length_append, List.length_cons]
      omega

end

/-- `json.loads` inverts `json.dumps` on well-formed values. -/
theorem json_loads_dumps (v : Json) (hwf : wfJson v = true) :
    json_loads (json_dumps v) = some v := by
  unfold json_loads
  obtain ⟨c, t, hct, hok⟩ := dumps_start v
  have hws : skipWs (json_dumps v) = json_dumps v := by
    rw [hct]
    exact skipWs_not_ws c t (startCharOK_facts c hok).1
  rw [hws]
  have hfuel : jsize v ≤ (json_dumps v).length + 1 := by
    have := jsize_le_dumps v
    omega
  have := (parse_dumps_triple ((json_dumps v).length + 1)).1 v [] hwf hfuel trivial
  rw [show json_dumps v ++ [] = json_dumps v from by simp] at this
  rw [this]
  simp [skipWs]

/-! ### ASCII output and framing lemmas (C7) -/

/-- Every character that `escapeChar` emits is ASCII. -/
theorem escapeChar_ascii (c x : Char) (hx : x ∈ escapeChar c) : x.toNat < 0x80 := by
  have hhex : ∀ e : Nat, e < 16 → (hexDigitCh e).toNat < 0x80 := by
    intro e he
    interval_cases e <;> decide
  have hh4 : ∀ n : Nat, ∀ y ∈ toHex4 n, y.toNat < 0x80 := by
    intro n y hy
    simp only [toHex4, List.mem_cons, List.not_mem_nil, or_false] at hy
    rcases hy with rfl | rfl | rfl | rfl <;>
      exact hhex _ (Nat.mod_lt _ (by norm_num))
  unfold escapeChar at hx
  split_ifs at hx with h1 h2 h3 h4 h5 h6 h7 h8 h9
  · simp only [List.mem_cons, List.not_mem_nil, or_false] at hx
    rcases hx with rfl | rfl <;> decide
  · simp only [List.mem_cons, List.not_mem_nil, or_false] at hx
    rcases hx with rfl | rfl <;> decide
  · simp only [List.mem_cons, List.not_mem_nil, or_false] at hx
    rcases hx with rfl | rfl <;> decide
  · simp only [List.mem_cons, List.not_mem_nil, or_false] at hx
    rcases hx with rfl | rfl <;> decide
  · simp only [List.mem_cons, List.not_mem_nil, or_false] at hx
    rcases hx with rfl | rfl <;> decide
  · simp only [List.mem_cons, List.not_mem_nil, or_false] at hx
    rcases hx with rfl | rfl <;> decide
  · simp only [List.mem_cons, List.not_mem_nil, or_false] at hx
    rcases hx with rfl | rfl <;> decide
  · simp only [List.mem_cons, List.not_mem_nil, or_false] at hx
    subst hx
    omega
  · simp only [List.mem_cons] at hx
    rcases hx with rfl | rfl | hx
    · decide
    · decide
    · exact hh4 _ _ hx
  · simp only [List.mem_append, List.mem_cons] at hx
    rcases hx with (rfl | rfl | hx) | (rfl | rfl | hx)
    · decide
    · decide
    · exact hh4 _ _ hx
    · decide
    · decide
    · exact hh4 _ _ hx

/-- Every character of an escaped string is ASCII. -/
theorem escapeStr_ascii (s : PyStr) (x : Char) (hx : x ∈ escapeStr s) : x.toNat < 0x80 := by
  unfold escapeStr at hx
  simp only [List.mem_flatten, List.mem_map] at hx
  obtain ⟨l, ⟨c, _, rfl⟩, hxl⟩ := hx
  exact escapeChar_ascii c x hxl

/-- Every character of a rendered integer is ASCII. -/
theorem intToChars_ascii (n : Int) (x : Char) (hx : x ∈ intToChars n) : x.toNat < 0x80 := by
  unfold intToChars at hx
  have hnat : ∀ m : Nat, x ∈ natToCharsPy m → x.toNat < 0x80 := by
    intro m hm
    have := natToCharsPy_all_digits m x hm
    simp only [isDigitCh, Bool.and_eq_true, decide_eq_true_eq] at this
    omega
  split at hx
  · simp only [List.mem_cons] at hx
    rcases hx with rfl | hx
    · decide
    · exact hnat _ hx
  · exact hnat _ hx

/-- Every character of a dumped string literal is ASCII. -/
theorem dumpStr_ascii (s : PyStr) (x : Char) (hx : x ∈ dumpStr s) : x.toNat < 0x80 := by
  rw [show dumpStr s = quoteC :: (escapeStr s ++ [quoteC]) from rfl] at hx
  rcases List.mem_cons.mp hx with rfl | hx2
  · decide
  · rcases List.mem_append.mp hx2 with hx3 | hx3
    · exact escapeStr_ascii s x hx3
    · rcases List.mem_cons.mp hx3 with rfl | hx4
      · decide
      · simp at hx4

mutual

/-- `json.dumps` output is pure ASCII (it escapes everything else). -/
theorem dumps_ascii : ∀ v : Json, ∀ x ∈ json_dumps v, x.toNat < 0x80
  | .null => by
    intro x hx
    simp only [json_dumps, List.mem_cons, List.not_mem_nil, or_false] at hx
    rcases hx with rfl | rfl | rfl | rfl <;> decide
  | .jbool true => by
    intro x hx
    simp only [json_dumps, List.mem_cons, List.not_mem_nil, or_false] at hx
    rcases hx with rfl | rfl | rfl | rfl <;> decide
  | .jbool false => by
    intro x hx
    simp only [json_dumps, List.mem_cons, List.not_mem_nil, or_false] at hx
    rcases hx with rfl | rfl | rfl | rfl | rfl <;> decide
  | .jint n => by
    intro x hx
    rw [show json_dumps (.jint n) = intToChars n from rfl] at hx
    exact intToChars_ascii n x hx
  | .jstr s => by
    intro x hx
    rw [show json_dumps (.jstr s) = dumpStr s from rfl] at hx
    exact dumpStr_ascii s x hx
  | .jarr .nil => by
    intro x hx
    simp only [json_dumps, List.mem_cons, List.not_mem_nil, or_false] at hx
    rcases hx with rfl | rfl <;> decide
  | .jarr (.cons y ys) => by
    intro x hx
    rw [show json_dumps (.jarr (.cons y ys)) =
        '[' :: (dumpsElems (.cons y ys) ++ [']']) from rfl] at hx
    rcases List.mem_cons.mp hx with rfl | hx2
    · decide
    · rcases List.mem_append.mp hx2 with hx3 | hx3
      · exact dumpsElems_ascii (.cons y ys) x hx3
      · rcases List.mem_cons.mp hx3 with rfl | hx4
        · decide
        · simp at hx4
  | .jobj .nil => by
    intro x hx
    simp only [json_dumps, List.mem_cons, List.not_mem_nil, or_false] at hx
    rcases hx with rfl | rfl <;> decide
  | .jobj (.cons k v fs) => by
    intro x hx
    rw [show json_dumps (.jobj (.cons k v fs)) =
        lbraceC :: (dumpsFields (.cons k v fs) ++ [rbraceC]) from rfl] at hx
    rcases List.mem_cons.mp hx with rfl | hx2
    · decide
    · rcases List.mem_append.mp hx2 with hx3 | hx3
      · exact dumpsFields_ascii (.cons k v fs) x hx3
      · rcases List.mem_cons.mp hx3 with rfl | hx4
        · decide
        · simp at hx4

/-- Rendered array elements are pure ASCII. -/
theorem dumpsElems_ascii : ∀ xs : JsonList, ∀ x ∈ dumpsElems xs, x.toNat < 0x80
  | .nil => by
    intro x hx
    simp [dumpsElems] at hx
  | .cons y .nil => by
    intro x hx
    rw [show dumpsElems (.cons y .nil) = json_dumps y from rfl] at hx
    exact dumps_ascii y x hx
  | .cons y (.cons z zs) => by
    intro x hx
    rw [show dumpsElems (.cons y (.cons z zs)) =
        json_dumps y ++ ',' :: ' ' :: dumpsElems (.cons z zs) from rfl] at hx
    simp only [List.mem_append, List.mem_cons] at hx
    rcases hx with hx | rfl | rfl | hx
    · exact dumps_ascii y x hx
    · decide
    · decide
    · exact dumpsElems_ascii (.cons z zs) x hx

/-- Rendered object fields are pure ASCII. -/
theorem dumpsFields_ascii : ∀ fs : JsonFields, ∀ x ∈ dumpsFields fs, x.toNat < 0x80
  | .nil => by
    intro x hx
    simp [dumpsFields] at hx
  | .cons k v .nil => by
    intro x hx
    rw [show dumpsFields (.cons k v .nil) =
        dumpStr k ++ ':' :: ' ' :: json_dumps v from rfl] at hx
    simp only [List.mem_append, List.mem_cons] at hx
    rcases hx with hx | rfl | rfl | hx
    · exact dumpStr_ascii k x hx
    · decide
    · decide
    · exact dumps_ascii v x hx
  | .cons k v (.cons k2 v2 gs) => by
    intro x hx
    rw [show dumpsFields (.cons k v (.cons k2 v2 gs)) =
        dumpStr k ++ ':' :: ' ' :: json_dumps v ++ ',' :: ' ' ::
          dumpsFields (.cons k2 v2 gs) from rfl] at hx
    rw [show dumpStr k ++ ':' :: ' ' :: json_dumps v ++ ',' :: ' ' ::
          dumpsFields (.cons k2 v2 gs) =
        dumpStr k ++ ((':' :: ' ' :: json_dumps v) ++
          ',' :: ' ' :: dumpsFields (.cons k2 v2 gs)) from by
      simp [List.append_assoc]] at hx
    rcases List.mem_append.mp hx with hx | hx2
    · exact dumpStr_ascii k x hx
    · rcases List.mem_append.mp hx2 with hx3 | hx3
      · rcases List.mem_cons.mp hx3 with rfl | hx4
        · decide
        · rcases List.mem_cons.mp hx4 with rfl | hx5
          · decide
          · exact dumps_ascii v x hx5
      · rcases List.mem_cons.mp hx3 with rfl | hx4
        · decide
        · rcases List.mem_cons.mp hx4 with rfl | hx5
          · decide
          · exact dumpsFields_ascii (.cons k2 v2 gs) x hx5

end

/-- On ASCII strings the UTF-8 byte length is the code-point count. -/
theorem utf8Len_ascii (s : PyStr) (h : ∀ x ∈ s, x.toNat < 0x80) : utf8Len s = s.length := by
  induction s with
  | nil => rfl
  | cons c t ih =>
    have hc : utf8SizeOf c = 1 := by
      unfold utf8SizeOf
      rw [if_pos (h c (List.mem_cons_self _ _))]
    have ht := ih (fun x hx => h x (List.mem_cons_of_mem _ hx))
    simp only [utf8Len, List.map_cons, List.sum_cons, List.length_cons] at ht ⊢
    omega

/-! ### Frame splitting inverts framing (C7) -/

/-- A digit-headed string does not start with the frame marker. -/
theorem startsWithTildeM_digit (c : Char) (l : PyStr) (h : isDigitCh c = true) :
    startsWithTildeM (c :: l) = false := by
  have hne : ¬ (c = '~') := by
    intro hc
    subst hc
    revert h
    decide
  cases l with
  | nil => rfl
  | cons b l2 =>
    cases l2 with
    | nil => rfl
    | cons e l3 => simp [startsWithTildeM, hne]

/-- `find("~m~")` lands exactly after a digit run. -/
theorem findTildeM_digits (ds t : PyStr) (h : ∀ c ∈ ds, isDigitCh c = true) :
    findTildeM (ds ++ '~' :: 'm' :: '~' :: t) = some ds.length := by
  induction ds with
  | nil => rfl
  | cons c cs ih =>
    have hc := h c (List.mem_cons_self _ _)
    rw [List.cons_append]
    rw [show findTildeM (c :: (cs ++ '~' :: 'm' :: '~' :: t)) =
        if startsWithTildeM (c :: (cs ++ '~' :: 'm' :: '~' :: t)) then some 0
        else (findTildeM (cs ++ '~' :: 'm' :: '~' :: t)).map (· + 1) from rfl]
    rw [startsWithTildeM_digit c _ hc]
    simp only [Bool.false_eq_true, if_false]
    rw [ih (fun x hx => h x (List.mem_cons_of_mem _ hx))]
    simp

/-- Folding the decimal rendering of `n` recovers `n`. -/
theorem foldl_natToCharsPy (n : Nat) :
    (natToCharsPy n).foldl (fun a c => a * 10 + digitVal c) 0 = n := by
  by_cases h0 : n = 0
  · subst h0
    decide
  · have hchars : natToCharsPy n = ((Nat.digits 10 n).reverse).map digitCh := by
      unfold natToCharsPy natToChars
      rw [if_neg h0, natDigitsF_eq_digits n n (Nat.le_refl n)]
    rw [hchars, List.foldl_map]
    refine Eq.trans (List.foldl_ext _ _ 0 ?_) (foldl_reverse_digits n)
    intro a d hd
    show a * 10 + digitVal (digitCh d) = a * 10 + d
    rw [digitVal_digitCh d (digits_lt_ten n d (List.mem_reverse.mp hd))]

/-- `int(str(n)) == n` for the length field. -/
theorem pyIntOfDigits_natToCharsPy (n : Nat) :
    pyIntOfDigits (natToCharsPy n) = .ok n := by
  have hne : (natToCharsPy n).isEmpty = false := by
    cases hh : natToCharsPy n with
    | nil => exact absurd hh (natToCharsPy_ne_nil n)
    | cons c t => rfl
  have hall : (natToCharsPy n).all isDigitCh = true := by
    rw [List.all_eq_true]
    intro c hc
    exact natToCharsPy_all_digits n c hc
  simp [pyIntOfDigits, hne, hall, foldl_natToCharsPy]

/-- One splitter iteration peels exactly one frame. -/
theorem splitFramesF_step (f : Nat) (p rest : PyStr) (r : List PyStr)
    (hr : splitFramesF f rest = .ok r) :
    splitFramesF (f + 1)
        ('~' :: 'm' :: '~' :: (natToCharsPy p.length ++ '~' :: 'm' :: '~' :: (p ++ rest))) =
      .ok (p :: r) := by
  have hpy := pyIntOfDigits_natToCharsPy p.length
  have hdig : ∀ c ∈ natToCharsPy p.length, isDigitCh c = true :=
    fun c hc => natToCharsPy_all_digits _ c hc
  conv_lhs => unfold splitFramesF
  rw [if_pos (show startsWithTildeM ('~' :: 'm' :: '~' ::
    (natToCharsPy p.length ++ '~' :: 'm' :: '~' :: (p ++ rest))) = true from rfl)]
  dsimp only
  rw [show List.drop 3 ('~' :: 'm' :: '~' ::
      (natToCharsPy p.length ++ '~' :: 'm' :: '~' :: (p ++ rest))) =
    natToCharsPy p.length ++ '~' :: 'm' :: '~' :: (p ++ rest) from rfl]
  rw [findTildeM_digits _ _ hdig]
  simp only []
  rw [List.take_left, hpy]
  simp only []
  rw [show natToCharsPy p.length ++ '~' :: 'm' :: '~' :: (p ++ rest) =
      (natToCharsPy p.length ++ ['~', 'm', '~']) ++ (p ++ rest) from by simp]
  rw [List.drop_left'
    (show (natToCharsPy p.length ++ ['~', 'm', '~']).length =
      (natToCharsPy p.length).length + 3 from by simp)]
  rw [List.take_left, List.drop_left, hr]

/-- With enough fuel the splitter inverts frame concatenation. -/
theorem splitFramesF_frames : ∀ (fuel : Nat) (ps : List PyStr),
    ((ps.map encode_frame).flatten).length < fuel →
    splitFramesF fuel ((ps.map encode_frame).flatten) = .ok ps := by
  intro fuel
  induction fuel with
  | zero =>
    intro ps h
    omega
  | succ f ih =>
    intro ps h
    cases ps with
    | nil => rfl
    | cons p ps =>
      have hflat : ((p :: ps).map encode_frame).flatten =
          '~' :: 'm' :: '~' :: (natToCharsPy p.length ++ '~' :: 'm' :: '~' ::
            (p ++ (ps.map encode_frame).flatten)) := by
        simp [encode_frame, tildeM]
      rw [hflat] at h ⊢
      have hlen : ((ps.map encode_frame).flatten).length < f := by
        simp only [List.length_cons, List.length_append] at h
        omega
      exact splitFramesF_step f p ((ps.map encode_frame).flatten) ps (ih ps hlen)

/-- `splitFrames` recovers the serialized payloads of an encoded message. -/
theorem splitFrames_encode (xs : List Json) :
    splitFrames (encode_message xs) = .ok (xs.map json_dumps) := by
  have hmsg : encode_message xs = ((xs.map json_dumps).map encode_frame).flatten := by
    simp [encode_message, List.map_map]
    rfl
  rw [show splitFrames (encode_message xs) =
    splitFramesF ((encode_message xs).length + 1) (encode_message xs) from rfl]
  rw [hmsg]
  exact splitFramesF_frames _ _ (Nat.lt_succ_self _)

/-- A dumped object does not look like a heartbeat frame. -/
theorem startsWithTildeH_lbrace (t : PyStr) : startsWithTildeH (lbraceC :: t) = false := by
  have hne : ¬ (lbraceC = '~') := by decide
  cases t with
  | nil => rfl
  | cons b t2 =>
    cases t2 with
    | nil => rfl
    | cons e t3 => simp [startsWithTildeH, hne]

/-- A dumped object starts with the opening brace. -/
theorem dumps_jobj_head (fs : JsonFields) :
    ∃ t, json_dumps (Json.jobj fs) = lbraceC :: t := by
  cases fs with
  | nil => exact ⟨[rbraceC], rfl⟩
  | cons k v gs => exact ⟨dumpsFields (.cons k v gs) ++ [rbraceC], rfl⟩

/-- Decoding inverts encoding on well-formed object payloads, with no
heartbeat echoes. -/
theorem decode_message_encode (xs : List Json) (hwf : ∀ x ∈ xs, wfObjPayload x = true) :
    decode_message (encode_message xs) = .ok (xs, []) := by
  unfold decode_message
  rw [splitFrames_encode]
  simp only []
  revert hwf
  induction xs with
  | nil =>
    intro _
    rfl
  | cons y ys ih =>
    intro hwf
    have hy := hwf y (List.mem_cons_self _ _)
    obtain ⟨fs, rfl⟩ : ∃ fs, y = Json.jobj fs := by
      cases y with
      | jobj fs => exact ⟨fs, rfl⟩
      | null => simp [wfObjPayload] at hy
      | jbool b => simp [wfObjPayload] at hy
      | jint n => simp [wfObjPayload] at hy
      | jstr s => simp [wfObjPayload] at hy
      | jarr l => simp [wfObjPayload] at hy
    obtain ⟨t, ht⟩ := dumps_jobj_head fs
    have hwfj : wfJson (Json.jobj fs) = true := by
      simpa [wfObjPayload, wfJson] using hy
    have hH : startsWithTildeH (json_dumps (Json.jobj fs)) = false := by
      rw [ht]
      exact startsWithTildeH_lbrace t
    have hloads := json_loads_dumps (Json.jobj fs) hwfj
    simp only [List.map_cons, List.filterMap_cons, List.filter_cons, hH,
      Bool.false_eq_true, if_false]
    rw [ht]
    simp only []
    simp only [if_true]
    rw [← ht, hloads]
    simp only []
    have ih2 := ih (fun x hx => hwf x (List.mem_cons_of_mem _ hx))
    simp only [Except.ok.injEq, Prod.mk.injEq] at ih2 ⊢
    exact ⟨by rw [ih2.1], by rw [ih2.2]⟩

/-- C7: for every well-formed list of JSON-object payloads (objects whose
strings are all ASCII), decoding the encoding of the list yields the list
back (with no heartbeat echoes), and every frame the encoder produces
carries a decimal length prefix equal to the UTF-8 byte length of that
frame's payload. -/
theorem C7_codec_round_trip (xs : List Json) (hwf : ∀ x ∈ xs, wfObjPayload x = true) :
    decode_message (encode_message xs) = .ok (xs, []) ∧
    ∀ x ∈ xs, encode_frame (json_dumps x) =
      tildeM ++ natToCharsPy (utf8Len (json_dumps x)) ++ tildeM ++ json_dumps x := by
  refine ⟨decode_message_encode xs hwf, ?_⟩
  intro x hx
  rw [utf8Len_ascii (json_dumps x) (dumps_ascii x)]
  rfl

/-- Concrete instantiation of the codec round trip on a one-object message. -/
theorem C7_codec_round_trip_witness :
    (∀ x ∈ [Json.jobj (JsonFields.cons ['m'] (Json.jstr ['p', 'o', 'n', 'g']) JsonFields.nil)],
      wfObjPayload x = true) ∧
    decode_message (encode_message
        [Json.jobj (JsonFields.cons ['m'] (Json.jstr ['p', 'o', 'n', 'g']) JsonFields.nil)]) =
      .ok ([Json.jobj (JsonFields.cons ['m'] (Json.jstr ['p', 'o', 'n', 'g']) JsonFields.nil)],
        []) :=
  ⟨by decide, (C7_codec_round_trip _ (by decide)).1⟩
